import Mathlib

set_option maxRecDepth 100000

/-!
Shallow embedding of the country-region-normalization repository
(src/normalize.py and src/batch_analyze.py) and proofs about it.

Strings are modelled as lists of Unicode scalar values (Lean Char).  The
model alphabet covers ASCII plus the acute-accented Latin vowels and the
combining acute accent U+0301, which is all that the filler tokens of
clean_text and the claims exercise; other code points behave as opaque
non-word, non-space characters exactly as they do under Python's regexes.
-/

/-- Convert a string literal to the character-list representation used throughout. -/
def strL (s : String) : List Char := s.toList

/-- The combining acute accent U+0301, produced by NFKD decomposition of acute vowels. -/
def acuteAccent : Char := '́'

/-- Model of the whitespace class shared by Python's str.strip, str.split and
the regex class \s: the six ASCII whitespace characters. -/
def isPySpace (c : Char) : Bool :=
  c = ' ' || c = '\t' || c = '\n' || c = '\r' || c = '\x0b' || c = '\x0c'

/-- The acute-accented Latin vowels of the model alphabet. -/
def accentedVowels : List Char := ['á', 'é', 'í', 'ó', 'ú', 'Á', 'É', 'Í', 'Ó', 'Ú']

/-- Model of Python's regex class \w (re.UNICODE): letters, digits and underscore.
On the model alphabet the letters are ASCII letters and the acute-accented vowels;
the combining accent U+0301 is category Mn, hence not a word character in Python. -/
def isWordChar (c : Char) : Bool :=
  ('a' ≤ c && c ≤ 'z') || ('A' ≤ c && c ≤ 'Z') || ('0' ≤ c && c ≤ '9') ||
    c = '_' || accentedVowels.contains c

/-- NFKD decompositions of the model alphabet: each precomposed acute vowel
splits into its base letter followed by the combining accent U+0301. -/
def nfkdTable : List (Char × List Char) :=
  [('á', ['a', acuteAccent]), ('é', ['e', acuteAccent]), ('í', ['i', acuteAccent]),
   ('ó', ['o', acuteAccent]), ('ú', ['u', acuteAccent]),
   ('Á', ['A', acuteAccent]), ('É', ['E', acuteAccent]), ('Í', ['I', acuteAccent]),
   ('Ó', ['O', acuteAccent]), ('Ú', ['U', acuteAccent])]

/-- Model of unicodedata.normalize("NFKD", s) on a single character:
table-driven decomposition, identity outside the table. -/
def pyNFKD (c : Char) : List Char :=
  ((nfkdTable.find? (fun p => p.1 == c)).map Prod.snd).getD [c]

/-- Lowercase mappings of the model alphabet (Python str.lower). -/
def lowerTable : List (Char × Char) :=
  [('A', 'a'), ('B', 'b'), ('C', 'c'), ('D', 'd'), ('E', 'e'), ('F', 'f'), ('G', 'g'),
   ('H', 'h'), ('I', 'i'), ('J', 'j'), ('K', 'k'), ('L', 'l'), ('M', 'm'), ('N', 'n'),
   ('O', 'o'), ('P', 'p'), ('Q', 'q'), ('R', 'r'), ('S', 's'), ('T', 't'), ('U', 'u'),
   ('V', 'v'), ('W', 'w'), ('X', 'x'), ('Y', 'y'), ('Z', 'z'),
   ('Á', 'á'), ('É', 'é'), ('Í', 'í'), ('Ó', 'ó'), ('Ú', 'ú')]

/-- Model of Python str.lower on a single character. -/
def pyLower (c : Char) : Char :=
  ((lowerTable.find? (fun p => p.1 == c)).map Prod.snd).getD c

/-- Characters untouched by another pass of NFKD plus lower: the normal form
that every character of a cleaned string ends up in. -/
def invChar (c : Char) : Bool := pyNFKD c == [c] && pyLower c == c

/-- Model of str.strip: drop leading and trailing whitespace. -/
def stripWs (s : List Char) : List Char :=
  ((s.dropWhile isPySpace).reverse.dropWhile isPySpace).reverse

/-- Helper for the leading-article regex: if the string starts with the word
"the" followed by whitespace, return the remainder with that prefix and the
whitespace run removed, else none.  This is the unique match of ^the\s+. -/
def theBody (s : List Char) : Option (List Char) :=
  match s with
  | 't' :: 'h' :: 'e' :: c :: rest =>
      if isPySpace c then some ((c :: rest).dropWhile isPySpace) else none
  | _ => none

/-- Model of re.sub(r"^the\s+", "", s): the pattern is anchored, so at most one
match is removed, together with the greedy whitespace run after "the". -/
def dropLeadingThe (s : List Char) : List Char := (theBody s).getD s

/-- Whether the anchored pattern ^the\s+ matches, i.e. the string begins with
the word "the" followed by a whitespace character. -/
def startsThe (s : List Char) : Bool := (theBody s).isSome

/-- The filler alternatives of the regex at src/normalize.py line 30, in source
order.  Note the second alternative contains the precomposed vowel U+00FA. -/
def fillerTokens : List (List Char) :=
  [strL "republica", strL "república", strL "republic", strL "rep", strL "of"]

/-- Whether a word equals one of the filler alternatives. -/
def isFiller (w : List Char) : Bool := fillerTokens.contains w

/-- Maximal word-character runs and intervening single characters, in order.
Each inl segment is a nonempty maximal run of word characters; each inr
segment is one non-word character.  The accumulator carries the current run. -/
def segsAux (acc : List Char) : List Char → List (List Char ⊕ Char)
  | [] => if acc.isEmpty then [] else [Sum.inl acc]
  | c :: cs =>
      if isWordChar c then segsAux (acc ++ [c]) cs
      else (if acc.isEmpty then [] else [Sum.inl acc]) ++ Sum.inr c :: segsAux [] cs

/-- Segment a string into maximal word runs and single non-word characters. -/
def segs (s : List Char) : List (List Char ⊕ Char) := segsAux [] s

/-- Rebuild a string from its segments. -/
def flattenSegs (l : List (List Char ⊕ Char)) : List Char :=
  l.flatMap (fun seg => match seg with | Sum.inl r => r | Sum.inr c => [c])

/-- Replacement action of re.sub(r"\b(republica|república|republic|rep|of)\b", " ", s)
on one segment.  Every filler alternative consists solely of word characters, and
\b holds exactly at transitions between word and non-word characters (or the string
edges), so the matches of the pattern are exactly the maximal word runs equal to
one of the alternatives; each is replaced by a single space. -/
def fillerSeg (seg : List Char ⊕ Char) : List Char ⊕ Char :=
  match seg with
  | Sum.inl r => if isFiller r then Sum.inr ' ' else Sum.inl r
  | Sum.inr c => Sum.inr c

/-- Model of re.sub(r"\b(republica|república|republic|rep|of)\b", " ", s). -/
def fillerSub (s : List Char) : List Char := flattenSegs ((segs s).map fillerSeg)

/-- Word segments of a segmentation. -/
def segWord (seg : List Char ⊕ Char) : Option (List Char) :=
  match seg with
  | Sum.inl w => some w
  | Sum.inr _ => none

/-- Word runs produced by segmenting after a pending run accumulator. -/
def wordsFrom (acc s : List Char) : List (List Char) := (segsAux acc s).filterMap segWord

/-- The maximal word runs of a string, in order. -/
def wordsOf (s : List Char) : List (List Char) := wordsFrom [] s

/-- Emission of one completed run under the filler substitution. -/
def fillerEmit (acc : List Char) : List Char :=
  if acc.isEmpty then [] else if isFiller acc then [' '] else acc

/-- Single-pass form of the filler substitution, equal to fillerSub. -/
def gSubAux (acc : List Char) : List Char → List Char
  | [] => fillerEmit acc
  | c :: cs =>
      if isWordChar c then gSubAux (acc ++ [c]) cs
      else fillerEmit acc ++ c :: gSubAux [] cs

/-- Whether a string has no two adjacent whitespace characters. -/
def noDoubleSpace : List Char → Bool
  | c :: d :: rest => !(isPySpace c && isPySpace d) && noDoubleSpace (d :: rest)
  | _ => true

/-- Whether a string does not start with whitespace. -/
def headNotSpace : List Char → Bool
  | [] => true
  | c :: _ => !isPySpace c

/-- Model of re.sub(r"[^\w\s]", " ", s): replace every character that is neither
a word character nor whitespace by a space. -/
def punctToSpace (s : List Char) : List Char :=
  s.map (fun c => if isWordChar c || isPySpace c then c else ' ')

/-- Accumulator pass of whitespace collapsing; the flag records whether the
previous character belonged to a whitespace run already emitted as one space. -/
def collapseAux (prev : Bool) : List Char → List Char
  | [] => []
  | c :: cs =>
      if isPySpace c then (if prev then [] else [' ']) ++ collapseAux true cs
      else c :: collapseAux false cs

/-- Model of re.sub(r"\s+", " ", s): each maximal whitespace run becomes one space. -/
def collapseWs (s : List Char) : List Char := collapseAux false s

/-- Model of clean_text (src/normalize.py lines 27-33): NFKD-decompose, lowercase
and strip; drop a leading "the "; blank whole-word fillers; replace punctuation
by spaces; collapse whitespace runs and strip. -/
def clean_text (s : List Char) : List Char :=
  stripWs (collapseWs (punctToSpace (fillerSub (dropLeadingThe
    (stripWs ((s.flatMap pyNFKD).map pyLower))))))

/-- Model of str.replace(" ", "") as used at src/normalize.py lines 60, 79 and 86:
remove every occurrence of the space character U+0020. -/
def noSpaceOf (s : List Char) : List Char := s.filter (fun c => c ≠ ' ')

/-- Cleaned, whitespace-free comparison form of a canonical registry name,
clean_text(name).replace(" ", ""). -/
def cleanNS (n : List Char) : List Char := noSpaceOf (clean_text n)

/-- Longest common prefix length of two character lists. -/
def lcp : List Char → List Char → Nat
  | a :: as, b :: bs => if a = b then lcp as bs + 1 else 0
  | _, _ => 0

/-- Inner step of the longest-match search: try start position j in b. -/
def flmStepB (a b : List Char) (i : Nat) (best : Nat × Nat × Nat) (j : Nat) :
    Nat × Nat × Nat :=
  if best.2.2 < lcp (a.drop i) (b.drop j) then (i, j, lcp (a.drop i) (b.drop j)) else best

/-- Outer step of the longest-match search: try all start positions in b for
start position i in a. -/
def flmStepA (a b : List Char) (best : Nat × Nat × Nat) (i : Nat) :
    Nat × Nat × Nat :=
  (List.range (b.length + 1)).foldl (flmStepB a b i) best

/-- Model of SequenceMatcher.find_longest_match over whole sequences (no junk:
autojunk only fires above 200 characters, outside the modelled regime).  Returns
(i, j, size) for the longest matching block; per the difflib contract, of all
maximal blocks it is the one starting earliest in a, then earliest in b, which
the strict comparison in flmStepB realises under this enumeration order. -/
def flm (a b : List Char) : Nat × Nat × Nat :=
  (List.range (a.length + 1)).foldl (flmStepA a b) (0, 0, 0)

/-- Fuel-indexed total size of all matching blocks of
SequenceMatcher.get_matching_blocks: the longest block plus, recursively, the
blocks strictly before and strictly after it on both sides.  (difflib's final
sort-and-merge of adjacent blocks does not change the total.)  The fuel makes
the recursion structural; combined sequence length is always sufficient fuel. -/
def matchTotalFuel : Nat → List Char → List Char → Nat
  | 0, _, _ => 0
  | fuel + 1, a, b =>
      if (flm a b).2.2 = 0 then 0
      else
        (flm a b).2.2 +
          matchTotalFuel fuel (a.take (flm a b).1) (b.take (flm a b).2.1) +
          matchTotalFuel fuel (a.drop ((flm a b).1 + (flm a b).2.2))
            (b.drop ((flm a b).2.1 + (flm a b).2.2))

/-- Total matched characters of SequenceMatcher(a, b). -/
def matchTotal (a b : List Char) : Nat := matchTotalFuel (a.length + b.length) a b

/-- Greedy count of characters of a available in b, consuming multiplicity:
the value computed by SequenceMatcher.quick_ratio's avail loop, equal to the
size of the multiset intersection. -/
def interCount : List Char → List Char → Nat
  | [], _ => 0
  | c :: a, b => if c ∈ b then interCount a (b.erase c) + 1 else interCount a b

/-- Ratio of difflib._calculate_ratio(matches, length): 2M / T, and 1.0 when
both sequences are empty.  Modelled over the rationals; for sequence lengths in
the modelled regime the double-precision comparison against the literal 0.85
coincides with the exact rational comparison against 17/20. -/
def calcRatio (m total : Nat) : ℚ :=
  if total = 0 then 1 else (2 * m : ℚ) / total

/-- Model of SequenceMatcher(a, b).ratio(). -/
def ratioQ (a b : List Char) : ℚ := calcRatio (matchTotal a b) (a.length + b.length)

/-- Model of SequenceMatcher(a, b).quick_ratio(). -/
def quickRatioQ (a b : List Char) : ℚ := calcRatio (interCount a b) (a.length + b.length)

/-- Model of SequenceMatcher(a, b).real_quick_ratio(). -/
def realQuickRatioQ (a b : List Char) : ℚ :=
  calcRatio (min a.length b.length) (a.length + b.length)

/-- Executable form of the cutoff test calcRatio m T ≥ 0.85, written integrally:
2m/T ≥ 17/20 iff 17T ≤ 40m, and for T = 0 the ratio is 1 ≥ 0.85. -/
def cutoffLe (m total : Nat) : Bool := 17 * total ≤ 40 * m

/-- The acceptance test of difflib.get_close_matches for one candidate x against
the word: the three ratio gates in source order, each compared to the 0.85 cutoff. -/
def gcmGate (x word : List Char) : Bool :=
  cutoffLe (min x.length word.length) (x.length + word.length) &&
    cutoffLe (interCount x word) (x.length + word.length) &&
    cutoffLe (matchTotal x word) (x.length + word.length)

/-- Candidates passing the gate in possibility order, paired with their scores;
the score ratio 2m/T is carried as the pair (m, T). -/
def gcmScored (word : List Char) (poss : List (List Char)) :
    List ((Nat × Nat) × List Char) :=
  poss.filterMap (fun x =>
    if gcmGate x word then some ((matchTotal x word, x.length + word.length), x) else none)

/-- Numerator-denominator form of calcRatio m T, with the T = 0 case mapped to 1. -/
def crVal (m total : Nat) : Nat × Nat := if total = 0 then (1, 1) else (2 * m, total)

/-- Executable comparison calcRatio m₁ T₁ < calcRatio m₂ T₂ by cross-multiplication. -/
def crLt (p q : Nat × Nat) : Bool := (crVal p.1 p.2).1 * (crVal q.1 q.2).2 < (crVal q.1 q.2).1 * (crVal p.1 p.2).2

/-- Executable comparison calcRatio m₁ T₁ = calcRatio m₂ T₂ by cross-multiplication. -/
def crEq (p q : Nat × Nat) : Bool := (crVal p.1 p.2).1 * (crVal q.1 q.2).2 = (crVal q.1 q.2).1 * (crVal p.1 p.2).2

/-- Python string comparison: lexicographic by code point, shorter prefix first. -/
def strLt : List Char → List Char → Bool
  | [], [] => false
  | [], _ :: _ => true
  | _ :: _, [] => false
  | a :: as, b :: bs => a < b || (a = b && strLt as bs)

/-- Strict comparison of (score, string) pairs, the tuple order used by
heapq.nlargest on the scored list. -/
def pairGt (p q : (Nat × Nat) × List Char) : Bool :=
  crLt q.1 p.1 || (crEq p.1 q.1 && strLt q.2 p.2)

/-- Fold step keeping the largest (score, string) pair; replacement only on a
strictly larger pair, matching the stability of sorted(..., reverse=True). -/
def pickStep (acc : Option ((Nat × Nat) × List Char)) (p : (Nat × Nat) × List Char) :
    Option ((Nat × Nat) × List Char) :=
  match acc with
  | none => some p
  | some q => if pairGt p q then some p else some q

/-- Largest (score, string) pair of the scored list, none when it is empty:
the head of heapq.nlargest(1, result). -/
def pickMax (l : List ((Nat × Nat) × List Char)) : Option ((Nat × Nat) × List Char) :=
  l.foldl pickStep none

/-- Model of difflib.get_close_matches(word, possibilities, n=1, cutoff=0.85). -/
def get_close_matches1 (word : List Char) (poss : List (List Char)) : List (List Char) :=
  match pickMax (gcmScored word poss) with
  | none => []
  | some p => [p.2]

/-- MatchKind: the five literal status strings returned by normalize_country. -/
inductive MatchKind where
  | empty
  | alias
  | firstword
  | fuzzy
  | unmapped
deriving DecidableEq, Repr

/-- Truthy lookup modelling cand in alias_map and alias_map[cand]: the mapped
value when the key is present and maps to a non-empty string, else none.
The alias dictionary (loaded at import time from alias_to_canonical.csv, a data
file not present under src/) is modelled as a partial map on cleaned keys. -/
def hitValue (aliasMap : List Char → Option (List Char)) (k : List Char) :
    Option (List Char) :=
  match aliasMap k with
  | some v => if v.isEmpty then none else some v
  | none => none

/-- Model of str.split() with no separator: maximal runs of non-whitespace. -/
def pySplitAux (acc : List Char) : List Char → List (List Char)
  | [] => if acc.isEmpty then [] else [acc]
  | c :: cs =>
      if isPySpace c then (if acc.isEmpty then [] else [acc]) ++ pySplitAux [] cs
      else pySplitAux (acc ++ [c]) cs

/-- Model of raw_clean.split(). -/
def pySplit (s : List Char) : List (List Char) := pySplitAux [] s

/-- Fuzzy tier of normalize_country (src/normalize.py lines 76-89): match the
no-space cleaned input against the no-space cleaned canonical names, then
recover the first canonical name with that cleaned form; fall through to
unmapped when nothing matches. -/
def fuzzyTier (no_space : List Char) (ctr : List Char → Option (List Char))
    (names : List (List Char)) : Option (List Char) × Option (List Char) × MatchKind :=
  match get_close_matches1 no_space (names.map cleanNS) with
  | [] => (none, none, MatchKind.unmapped)
  | matched :: _ =>
      match names.find? (fun n => cleanNS n == matched) with
      | some name => (some name, ctr name, MatchKind.fuzzy)
      | none => (none, none, MatchKind.unmapped)

/-- Model of normalize_country (src/normalize.py lines 55-89).  raw is an
optional string, none standing for None/NaN (pd.isna).  The alias dictionary
and the two registry globals CANONICAL_TO_REGION and CANONICAL_NAMES are
parameters because the CSV data files they are loaded from are not part of
src/; ctr models CANONICAL_TO_REGION.get and names models CANONICAL_NAMES. -/
def normalize_country (raw : Option (List Char))
    (aliasMap : List Char → Option (List Char))
    (ctr : List Char → Option (List Char)) (names : List (List Char)) :
    Option (List Char) × Option (List Char) × MatchKind :=
  match raw with
  | none => (none, none, MatchKind.empty)
  | some r =>
      if (stripWs r).isEmpty then (none, none, MatchKind.empty)
      else
        let raw_clean := clean_text r
        let no_space := noSpaceOf raw_clean
        match hitValue aliasMap raw_clean with
        | some canon => (some canon, ctr canon, MatchKind.alias)
        | none =>
            match hitValue aliasMap no_space with
            | some canon => (some canon, ctr canon, MatchKind.alias)
            | none =>
                match (pySplit raw_clean).head? with
                | some first =>
                    match hitValue aliasMap first with
                    | some canon => (some canon, ctr canon, MatchKind.firstword)
                    | none => fuzzyTier no_space ctr names
                | none => fuzzyTier no_space ctr names

/-- Normalized cell written back to the country column, src/normalize.py line 153:
normalized if normalized else value, i.e. the resolved name unless it is falsy
(absent or empty), in which case the original raw value is kept. -/
def cellOut (norm value : Option (List Char)) : Option (List Char) :=
  match norm with
  | some c => if c.isEmpty then value else some c
  | none => value

/-- Region cell, src/normalize.py line 154: region if region else None. -/
def regionOut (region : Option (List Char)) : Option (List Char) :=
  match region with
  | some r => if r.isEmpty then none else some r
  | none => none

/-- Tally update of src/normalize.py lines 148-151: when the status is unmapped
and the raw value is present and non-blank, count it under its cleaned string,
but only when that cleaned string is non-empty. -/
def tallyUpdate (tally : List Char → Nat) (value : Option (List Char))
    (status : MatchKind) : List Char → Nat :=
  match value with
  | none => tally
  | some v =>
      if status = MatchKind.unmapped ∧ ¬(stripWs v).isEmpty ∧ ¬(clean_text v).isEmpty then
        fun k => if k = clean_text v then tally k + 1 else tally k
      else tally

/-- One iteration of the per-value loop of process_csv (src/normalize.py lines
145-154): resolve the value, update the unmapped tally, append the normalized
cell and the region cell. -/
def processStep (aliasMap ctr : List Char → Option (List Char))
    (names : List (List Char))
    (acc : List (Option (List Char)) × List (Option (List Char)) × (List Char → Nat))
    (value : Option (List Char)) :
    List (Option (List Char)) × List (Option (List Char)) × (List Char → Nat) :=
  (acc.1 ++ [cellOut (normalize_country value aliasMap ctr names).1 value],
    acc.2.1 ++ [regionOut (normalize_country value aliasMap ctr names).2.1],
    tallyUpdate acc.2.2 value (normalize_country value aliasMap ctr names).2.2)

/-- Per-value loop of process_csv over one column (src/normalize.py lines
142-154), producing the normalized cells, the region cells and the updated
unmapped tally.  The tally is a total count function, Counter-style (absent
keys count 0). -/
def processValues (aliasMap ctr : List Char → Option (List Char))
    (names : List (List Char)) (tally0 : List Char → Nat)
    (values : List (Option (List Char))) :
    List (Option (List Char)) × List (Option (List Char)) × (List Char → Nat) :=
  values.foldl (processStep aliasMap ctr names) ([], [], tally0)

/-- Whether one value contributes a tally increment at key k: exactly the guard
of src/normalize.py lines 148-151 together with the key equality. -/
def tallyCounts (aliasMap ctr : List Char → Option (List Char))
    (names : List (List Char)) (value : Option (List Char)) (k : List Char) : Bool :=
  match value with
  | none => false
  | some v =>
      decide ((normalize_country (some v) aliasMap ctr names).2.2 = MatchKind.unmapped) &&
        !(stripWs v).isEmpty && !(clean_text v).isEmpty && decide (clean_text v = k)

/-- A table is an ordered list of named columns of optional cells (none = NaN). -/
def getCol (df : List (List Char × List (Option (List Char)))) (name : List Char) :
    List (Option (List Char)) :=
  ((df.find? (fun p => p.1 == name)).map Prod.snd).getD []

/-- Overwrite the cells of the named column in place (df_normalized[col] = ...). -/
def setCol (df : List (List Char × List (Option (List Char)))) (name : List Char)
    (cells : List (Option (List Char))) : List (List Char × List (Option (List Char))) :=
  df.map (fun p => if p.1 = name then (p.1, cells) else p)

/-- Position of the named column (df.columns.get_loc(col)). -/
def getLoc (df : List (List Char × List (Option (List Char)))) (name : List Char) : Nat :=
  df.findIdx (fun p => p.1 == name)

/-- Insert an element at a position, shifting the tail (df.insert(loc, ...)). -/
def insertAt {α : Type} : Nat → α → List α → List α
  | 0, x, l => x :: l
  | _ + 1, x, [] => [x]
  | n + 1, x, c :: cs => c :: insertAt n x cs

/-- Column loop of process_csv (src/normalize.py lines 137-166): for each target
column, normalize its values (read from the original table), overwrite the
column, and insert the sibling region column right after it; one unmapped
tally accumulates across all columns. -/
def process_columns (aliasMap ctr : List Char → Option (List Char))
    (names : List (List Char)) (df : List (List Char × List (Option (List Char))))
    (cols : List (List Char)) :
    List (List Char × List (Option (List Char))) × (List Char → Nat) :=
  cols.foldl
    (fun acc col =>
      let r := processValues aliasMap ctr names acc.2 (getCol df col)
      let df1 := setCol acc.1 col r.1
      (insertAt (getLoc df1 col + 1) (col ++ strL "_region", r.2.1) df1, r.2.2))
    (df, fun _ => 0)

/-- Cross-batch merge of src/batch_analyze.py lines 43-50: each file contributes
its significant unmapped entries (count at least 2) via all_unmapped[value] += count,
so the merged count at a key sums the per-batch counts that reach 2. -/
def mergeTallies (batches : List (List Char → Nat)) : List Char → Nat :=
  fun k => (batches.map (fun t => if 2 ≤ t k then t k else 0)).sum

/-- Spec of flm needed for bounds and counting: the reported size fits below
the longest common prefix at the reported offsets. -/
theorem flm_le_lcp (a b : List Char) :
    (flm a b).2.2 ≤ lcp (a.drop (flm a b).1) (b.drop (flm a b).2.1) := by
  have main : ∀ (l₂ l₁ : List Nat) (best : Nat × Nat × Nat),
      best.2.2 ≤ lcp (a.drop best.1) (b.drop best.2.1) →
      (l₁.foldl (flmStepA a b) best).2.2 ≤
        lcp (a.drop (l₁.foldl (flmStepA a b) best).1)
          (b.drop (l₁.foldl (flmStepA a b) best).2.1) := by
    intro l₂ l₁
    induction l₁ with
    | nil => intro best h; exact h
    | cons i is ih =>
        intro best h
        refine ih _ ?_
        have inner : ∀ (m : List Nat) (acc : Nat × Nat × Nat),
            acc.2.2 ≤ lcp (a.drop acc.1) (b.drop acc.2.1) →
            (m.foldl (flmStepB a b i) acc).2.2 ≤
              lcp (a.drop (m.foldl (flmStepB a b i) acc).1)
                (b.drop (m.foldl (flmStepB a b i) acc).2.1) := by
          intro m
          induction m with
          | nil => intro acc hacc; exact hacc
          | cons j js ihj =>
              intro acc hacc
              refine ihj _ ?_
              unfold flmStepB
              split
              · simp
              · exact hacc
        exact inner _ best h
  exact main [] (List.range (a.length + 1)) (0, 0, 0) (by simp [lcp])

theorem lcp_le_length_left (a b : List Char) : lcp a b ≤ a.length := by
  induction a generalizing b with
  | nil => simp [lcp]
  | cons c cs ih =>
      cases b with
      | nil => simp [lcp]
      | cons d ds =>
          unfold lcp
          split
          · have := ih ds
            simp
            omega
          · simp

theorem lcp_le_length_right (a b : List Char) : lcp a b ≤ b.length := by
  induction a generalizing b with
  | nil => simp [lcp]
  | cons c cs ih =>
      cases b with
      | nil => simp [lcp]
      | cons d ds =>
          unfold lcp
          split
          · have := ih ds
            simp
            omega
          · simp

/-- Matching prefixes agree up to the common-prefix length. -/
theorem lcp_take {n : Nat} : ∀ a b : List Char, n ≤ lcp a b → a.take n = b.take n := by
  induction n with
  | zero => intro a b _; simp
  | succ m ih =>
      intro a b h
      cases a with
      | nil => simp [lcp] at h
      | cons c cs =>
          cases b with
          | nil => simp [lcp] at h
          | cons d ds =>
              unfold lcp at h
              split at h
              · rename_i hcd
                subst hcd
                simp only [List.take_succ_cons]
                rw [ih cs ds (by omega)]
              · omega

/-- Bounds of the longest matching block inside both sequences. -/
theorem flm_bounds (a b : List Char) (h : 1 ≤ (flm a b).2.2) :
    (flm a b).1 + (flm a b).2.2 ≤ a.length ∧
      (flm a b).2.1 + (flm a b).2.2 ≤ b.length := by
  have h1 := flm_le_lcp a b
  have h2 := lcp_le_length_left (a.drop (flm a b).1) (b.drop (flm a b).2.1)
  have h3 := lcp_le_length_right (a.drop (flm a b).1) (b.drop (flm a b).2.1)
  simp only [List.length_drop] at h2 h3
  omega

/-- C5: resolve yields MatchKind "empty" exactly as the spec says for absent
raw values and for strings that are blank after trimming. -/
theorem normalize_country_empty (raw : Option (List Char))
    (aliasMap ctr : List Char → Option (List Char)) (names : List (List Char))
    (h : raw = none ∨ ∃ s, raw = some s ∧ stripWs s = []) :
    normalize_country raw aliasMap ctr names = (none, none, MatchKind.empty) := by
  rcases h with rfl | ⟨s, rfl, hs⟩
  · rfl
  · simp [normalize_country, hs]

/-- Witness for C5 at the three inputs named by the claim: the empty string, a
blank string and the null value. -/
theorem normalize_country_empty_witness :
    normalize_country (some (strL "")) (fun _ => none) (fun _ => none) [] =
        (none, none, MatchKind.empty) ∧
      normalize_country (some (strL "   ")) (fun _ => none) (fun _ => none) [] =
        (none, none, MatchKind.empty) ∧
      normalize_country none (fun _ => none) (fun _ => none) [] =
        (none, none, MatchKind.empty) :=
  ⟨normalize_country_empty _ _ _ _ (Or.inr ⟨_, rfl, by decide⟩),
    normalize_country_empty _ _ _ _ (Or.inr ⟨_, rfl, by decide⟩),
    normalize_country_empty _ _ _ _ (Or.inl rfl)⟩

/-- C1: for a non-blank raw value, an exact alias hit (cleaned form checked
first, then the no-space form) returns that mapped canonical value with
MatchKind "alias"; the fuzzy tier is never reached for such an input. -/
theorem alias_priority (r : List Char) (aliasMap ctr : List Char → Option (List Char))
    (names : List (List Char)) (hne : stripWs r ≠ []) :
    (∀ canon, hitValue aliasMap (clean_text r) = some canon →
        normalize_country (some r) aliasMap ctr names =
          (some canon, ctr canon, MatchKind.alias)) ∧
      (hitValue aliasMap (clean_text r) = none →
        ∀ canon, hitValue aliasMap (noSpaceOf (clean_text r)) = some canon →
          normalize_country (some r) aliasMap ctr names =
            (some canon, ctr canon, MatchKind.alias)) := by
  constructor
  · intro canon hc
    simp [normalize_country, List.isEmpty_iff, hne, hc]
  · intro h0 canon hc
    simp [normalize_country, List.isEmpty_iff, hne, h0, hc]

/-- Witness for C1: a cleaned-form alias hit and a no-space-form alias hit. -/
theorem alias_priority_witness :
    normalize_country (some (strL "The USA!"))
        (fun k => if k = strL "usa" then some (strL "United States") else none)
        (fun _ => none) [] = (some (strL "United States"), none, MatchKind.alias) ∧
      normalize_country (some (strL "United  States"))
        (fun k => if k = strL "unitedstates" then some (strL "United States") else none)
        (fun _ => none) [] = (some (strL "United States"), none, MatchKind.alias) :=
  ⟨(alias_priority _ _ _ _ (by decide)).1 _ (by decide),
    (alias_priority _ _ _ _ (by decide)).2 (by decide) _ (by decide)⟩

/-- C10: a non-none canonical result does not imply a non-none region: when the
alias (or first-word) tier maps to a canonical name on which the registry
lookup returns none, resolve returns that name with region none. -/
theorem alias_region_none (r : List Char) (aliasMap ctr : List Char → Option (List Char))
    (names : List (List Char)) (hne : stripWs r ≠ []) :
    (∀ canon, hitValue aliasMap (clean_text r) = some canon → ctr canon = none →
        normalize_country (some r) aliasMap ctr names =
          (some canon, none, MatchKind.alias)) ∧
      (hitValue aliasMap (clean_text r) = none →
        hitValue aliasMap (noSpaceOf (clean_text r)) = none →
        ∀ first canon, (pySplit (clean_text r)).head? = some first →
          hitValue aliasMap first = some canon → ctr canon = none →
          normalize_country (some r) aliasMap ctr names =
            (some canon, none, MatchKind.firstword)) := by
  constructor
  · intro canon hc hr
    simp [normalize_country, List.isEmpty_iff, hne, hc, hr]
  · intro h0 h1 first canon hf hc hr
    simp [normalize_country, List.isEmpty_iff, hne, h0, h1, hf, hc, hr]

/-- Witness for C10: an alias mapping to "Atlantis", absent from the registry,
reached once through the cleaned form and once through the first-word tier. -/
theorem alias_region_none_witness :
    normalize_country (some (strL "Atlantis"))
        (fun k => if k = strL "atlantis" then some (strL "Atlantis") else none)
        (fun _ => none) [] = (some (strL "Atlantis"), none, MatchKind.alias) ∧
      normalize_country (some (strL "Atlantis Island"))
        (fun k => if k = strL "atlantis" then some (strL "Atlantis") else none)
        (fun _ => none) [] = (some (strL "Atlantis"), none, MatchKind.firstword) :=
  ⟨(alias_region_none _ _ _ _ (by decide)).1 (strL "Atlantis") (by decide) rfl,
    (alias_region_none _ _ _ _ (by decide)).2 (by decide) (by decide)
      (strL "atlantis") (strL "Atlantis") (by decide) (by decide) rfl⟩

/-- C3 (code bug): the cleaner does not remove the accented filler "república".
NFKD runs before the filler regex, so the accented input decomposes to
"repu" + U+0301 + "blica"; neither the dead precomposed alternative nor
"republica" matches it, and the combining accent then becomes a space: the
result is "repu blica" for the precomposed and the decomposed spellings alike,
while cleaning "republica" removes the filler and yields the empty string. -/
theorem republica_filler_not_removed :
    clean_text (strL "república") = strL "repu blica" ∧
      clean_text (strL "repu" ++ [acuteAccent] ++ strL "blica") = strL "repu blica" ∧
      clean_text (strL "republica") = [] ∧
      clean_text (strL "república") ≠ clean_text (strL "republica") :=
  ⟨by decide, by decide, by decide, by decide⟩

/-- C4 counterexample: the cleaner is not idempotent.  Cleaning "the the x"
strips only the anchored leading "the ", leaving "the x", and a second pass
strips the newly exposed "the " as well. -/
theorem clean_text_not_idempotent :
    clean_text (clean_text (strL "the the x")) ≠ clean_text (strL "the the x") := by
  decide

/-- Applying a tally update changes the count at k exactly when the guard of
src/normalize.py lines 148-151 fires for this value and key. -/
theorem tallyUpdate_apply (am ctr : List Char → Option (List Char))
    (names : List (List Char)) (t : List Char → Nat) (v : Option (List Char))
    (k : List Char) :
    tallyUpdate t v (normalize_country v am ctr names).2.2 k
      = t k + (if tallyCounts am ctr names v k then 1 else 0) := by
  cases v with
  | none => simp [tallyUpdate, tallyCounts]
  | some s =>
      by_cases hu : (normalize_country (some s) am ctr names).2.2 = MatchKind.unmapped
      · by_cases hs : (stripWs s).isEmpty
        · simp [tallyUpdate, tallyCounts, hu, hs]
        · by_cases hc : (clean_text s).isEmpty
          · simp [tallyUpdate, tallyCounts, hu, hs, hc]
          · by_cases hk : k = clean_text s
            · simp [tallyUpdate, tallyCounts, hu, hs, hc, hk]
            · have hk2 : ¬(clean_text s = k) := fun h => hk h.symm
              simp [tallyUpdate, tallyCounts, hu, hs, hc, hk, hk2]
      · simp [tallyUpdate, tallyCounts, hu]

/-- Folding the per-value loop adds, at every key, one count per value whose
guard fires for that key. -/
theorem processFold_tally (am ctr : List Char → Option (List Char))
    (names : List (List Char)) (values : List (Option (List Char))) :
    ∀ (acc : List (Option (List Char)) × List (Option (List Char)) × (List Char → Nat))
      (k : List Char),
      (values.foldl (processStep am ctr names) acc).2.2 k
        = acc.2.2 k + (values.filter (fun v => tallyCounts am ctr names v k)).length := by
  induction values with
  | nil => intro acc k; simp
  | cons v vs ih =>
      intro acc k
      rw [List.foldl_cons, ih, List.filter_cons]
      simp only [processStep]
      rw [tallyUpdate_apply am ctr names acc.2.2 v k]
      by_cases hv : tallyCounts am ctr names v k = true
      · simp only [hv, if_true, List.length_cons]
        omega
      · simp only [hv, if_false, Bool.false_eq_true]
        simp [hv]

/-- C6 amended: over a processed column the unmapped tally at each key equals
the number of values whose resolution is unmapped, whose raw value is present
and non-blank, and whose cleaned string is that (non-empty) key; each such
value increments the tally by one, and no other value touches it. -/
theorem unmapped_tally_counts (am ctr : List Char → Option (List Char))
    (names : List (List Char)) (values : List (Option (List Char))) (k : List Char) :
    (processValues am ctr names (fun _ => 0) values).2.2 k
      = (values.filter (fun v => tallyCounts am ctr names v k)).length := by
  rw [processValues, processFold_tally]
  simp

/-- C6 counterexample: the raw value "???" resolves to unmapped and is
non-blank, yet the batch loop leaves the tally at its cleaned key (the empty
string) untouched, because only non-empty cleaned values are counted. -/
theorem unmapped_tally_counterexample :
    (normalize_country (some (strL "???")) (fun _ => none) (fun _ => none) []).2.2
        = MatchKind.unmapped ∧
      stripWs (strL "???") ≠ [] ∧
      (processValues (fun _ => none) (fun _ => none) [] (fun _ => 0)
          [some (strL "???")]).2.2 (clean_text (strL "???")) = 0 :=
  ⟨by decide, by decide, by decide⟩

/-- C7 amended: merging batch tallies sums the counts of a key over the
batches, provided the key reaches the per-file significance threshold (count
at least 2) in every batch; a batch where the count is below 2 contributes
nothing for that key. -/
theorem merge_tallies_sum (batches : List (List Char → Nat)) (k : List Char)
    (h : ∀ t ∈ batches, 2 ≤ t k) :
    mergeTallies batches k = (batches.map (fun t => t k)).sum := by
  induction batches with
  | nil => rfl
  | cons t ts ih =>
      have ht : 2 ≤ t k := h t (by simp)
      have hts : ∀ u ∈ ts, 2 ≤ u k := fun u hu => h u (by simp [hu])
      have ihts := ih hts
      simp only [mergeTallies, List.map_cons, List.sum_cons] at ihts ⊢
      rw [if_pos ht, ihts]

/-- C7 counterexample: a key counted once in one batch and three times in
another merges to 3, not to the claimed sum 4, because the merge of
src/batch_analyze.py only adds per-file counts of at least 2. -/
theorem merge_tallies_counterexample :
    mergeTallies
        [(processValues (fun _ => none) (fun _ => none) [] (fun _ => 0)
            [some (strL "freedonia")]).2.2,
          (processValues (fun _ => none) (fun _ => none) [] (fun _ => 0)
            [some (strL "freedonia"), some (strL "freedonia"),
              some (strL "freedonia")]).2.2] (strL "freedonia") = 3 ∧
      (processValues (fun _ => none) (fun _ => none) [] (fun _ => 0)
            [some (strL "freedonia")]).2.2 (strL "freedonia") +
          (processValues (fun _ => none) (fun _ => none) [] (fun _ => 0)
            [some (strL "freedonia"), some (strL "freedonia"),
              some (strL "freedonia")]).2.2 (strL "freedonia") = 4 ∧
      (3 : Nat) ≠ 4 :=
  ⟨by decide, by decide, by decide⟩

/-- Witness for C7: two batches that each contain "freedonia" twice merge to a
count of 4 for the key "freedonia". -/
theorem merge_tallies_sum_witness :
    mergeTallies
        [(processValues (fun _ => none) (fun _ => none) [] (fun _ => 0)
            [some (strL "freedonia"), some (strL "freedonia")]).2.2,
          (processValues (fun _ => none) (fun _ => none) [] (fun _ => 0)
            [some (strL "freedonia"), some (strL "freedonia")]).2.2]
        (strL "freedonia") = 4 :=
  (merge_tallies_sum _ _ (by decide)).trans (by decide)

/-- C9: a raw value that is non-blank but cleans to the empty string resolves
to (none, none, "unmapped") rather than "empty" (under reference data in which
the empty string is no alias key and no canonical name cleans to nothing), and
the batch loop records no tally entry for it. -/
theorem blank_clean_unmapped (r : List Char)
    (am ctr : List Char → Option (List Char)) (names : List (List Char))
    (hne : stripWs r ≠ []) (hclean : clean_text r = [])
    (hnokey : hitValue am [] = none)
    (hnames : ∀ n ∈ names, cleanNS n ≠ []) :
    normalize_country (some r) am ctr names = (none, none, MatchKind.unmapped) ∧
      ∀ t : List Char → Nat,
        tallyUpdate t (some r) (normalize_country (some r) am ctr names).2.2 = t := by
  have hscored : gcmScored [] (names.map cleanNS) = [] := by
    unfold gcmScored
    rw [List.filterMap_eq_nil_iff]
    intro x hx
    rcases List.mem_map.mp hx with ⟨n, hn, rfl⟩
    have hx0 : (cleanNS n).length ≠ 0 := by
      simpa [List.length_eq_zero] using hnames n hn
    have hgate : gcmGate (cleanNS n) [] = false := by
      unfold gcmGate cutoffLe
      simp [hx0]
    simp [hgate]
  have hres : normalize_country (some r) am ctr names = (none, none, MatchKind.unmapped) := by
    simp [normalize_country, List.isEmpty_iff, hne, hclean, noSpaceOf, hnokey, pySplit,
      pySplitAux, fuzzyTier, get_close_matches1, hscored, pickMax]
  refine ⟨hres, ?_⟩
  intro t
  simp [tallyUpdate, hclean]

/-- Witness for C9 at the punctuation-only raw value "???" against a one-name
registry. -/
theorem blank_clean_unmapped_witness :
    normalize_country (some (strL "???")) (fun _ => none) (fun _ => none)
        [strL "Brazil"] = (none, none, MatchKind.unmapped) ∧
      tallyUpdate (fun _ => 0) (some (strL "???"))
        (normalize_country (some (strL "???")) (fun _ => none) (fun _ => none)
          [strL "Brazil"]).2.2 = (fun _ => 0) :=
  ⟨(blank_clean_unmapped _ _ _ _ (by decide) (by decide) (by decide) (by decide)).1,
    (blank_clean_unmapped _ _ _ _ (by decide) (by decide) (by decide) (by decide)).2
      (fun _ => 0)⟩

/-- Appending a non-empty suffix changes a list. -/
theorem append_ne_self (l m : List Char) (hm : m ≠ []) : l ++ m ≠ l := by
  intro h
  have := congrArg List.length h
  simp only [List.length_append] at this
  have : m.length = 0 := by omega
  exact hm (List.length_eq_zero.mp this)

/-- The column name survives a conditional cell overwrite. -/
theorem setCol_head_fst (p : List Char × List (Option (List Char)))
    (name : List Char) (cells : List (Option (List Char))) :
    (if p.1 = name then (p.1, cells) else p).1 = p.1 := by
  split <;> rfl

/-- Overwriting a column's cells keeps the column-name sequence. -/
theorem map_fst_setCol (df : List (List Char × List (Option (List Char))))
    (name : List Char) (cells : List (Option (List Char))) :
    (setCol df name cells).map Prod.fst = df.map Prod.fst := by
  induction df with
  | nil => rfl
  | cons p ps ih =>
      simp only [setCol, List.map_cons] at ih ⊢
      rw [setCol_head_fst, ih]

/-- Column positions are unaffected by overwriting cells. -/
theorem getLoc_setCol (df : List (List Char × List (Option (List Char))))
    (name m : List Char) (cells : List (Option (List Char))) :
    getLoc (setCol df name cells) m = getLoc df m := by
  induction df with
  | nil => rfl
  | cons p ps ih =>
      simp only [setCol, List.map_cons, getLoc] at ih ⊢
      rw [List.findIdx_cons, List.findIdx_cons, setCol_head_fst, ih]

/-- Inserting an element maps through List.map. -/
theorem map_insertAt {α β : Type} (f : α → β) :
    ∀ (n : Nat) (x : α) (l : List α),
      (insertAt n x l).map f = insertAt n (f x) (l.map f) := by
  intro n
  induction n with
  | zero => intro x l; rfl
  | succ m ih =>
      intro x l
      cases l with
      | nil => rfl
      | cons c cs => simp [insertAt, ih]

/-- Reading a column other than the inserted one is unaffected by insertion. -/
theorem getCol_insertAt_ne (name : List Char)
    (x : List Char × List (Option (List Char))) (hx : x.1 ≠ name) :
    ∀ (n : Nat) (df : List (List Char × List (Option (List Char)))),
      getCol (insertAt n x df) name = getCol df name := by
  intro n
  induction n with
  | zero =>
      intro df
      simp only [insertAt, getCol, List.find?_cons]
      have : (x.1 == name) = false := by simpa using hx
      simp [this]
  | succ m ih =>
      intro df
      cases df with
      | nil =>
          simp only [insertAt, getCol, List.find?_cons]
          have : (x.1 == name) = false := by simpa using hx
          simp [this]
      | cons p ps =>
          simp only [insertAt, getCol, List.find?_cons]
          cases hpb : (p.1 == name) with
          | true => rfl
          | false => simpa [getCol] using ih ps

/-- Reading a column other than the overwritten one is unaffected. -/
theorem getCol_setCol_ne (df : List (List Char × List (Option (List Char))))
    (name m : List Char) (cells : List (Option (List Char))) (hm : m ≠ name) :
    getCol (setCol df name cells) m = getCol df m := by
  induction df with
  | nil => rfl
  | cons p ps ih =>
      simp only [setCol, getCol, List.map_cons, List.find?_cons, setCol_head_fst] at ih ⊢
      cases hpb : (p.1 == m) with
      | true =>
          have hpm : p.1 = m := by simpa using hpb
          have hp : ¬(p.1 = name) := by rw [hpm]; exact hm
          simp [hpb, hp]
      | false => simpa [hpb] using ih

/-- Reading back the overwritten column yields the new cells when the column
exists, and nothing otherwise. -/
theorem getCol_setCol_self (df : List (List Char × List (Option (List Char))))
    (name : List Char) (cells : List (Option (List Char))) :
    getCol (setCol df name cells) name
      = if name ∈ df.map Prod.fst then cells else [] := by
  induction df with
  | nil => rfl
  | cons p ps ih =>
      simp only [setCol, getCol, List.map_cons, List.find?_cons, setCol_head_fst] at ih ⊢
      by_cases hp : p.1 = name
      · simp [hp]
      · have hpb : (p.1 == name) = false := by simpa using hp
        have hne : ¬(name = p.1) := fun h => hp h.symm
        simp only [hpb, List.mem_cons, hne, false_or, cond_false]
        exact ih

/-- A column absent from the table reads as empty. -/
theorem getCol_not_mem (df : List (List Char × List (Option (List Char))))
    (name : List Char) (h : name ∉ df.map Prod.fst) : getCol df name = [] := by
  induction df with
  | nil => rfl
  | cons p ps ih =>
      simp only [List.map_cons, List.mem_cons] at h
      push_neg at h
      have : (p.1 == name) = false := by simpa using fun hh => h.1 hh.symm
      simp only [getCol, List.find?_cons, this]
      exact ih h.2

/-- The normalized cells of a processed column are the pointwise overwrite of
src/normalize.py line 153: the resolved canonical name where resolution
produced a truthy name, the original raw value otherwise. -/
theorem processValues_cells (am ctr : List Char → Option (List Char))
    (names : List (List Char)) (values : List (Option (List Char))) :
    ∀ acc, (values.foldl (processStep am ctr names) acc).1
      = acc.1 ++ values.map (fun v => cellOut (normalize_country v am ctr names).1 v) := by
  induction values with
  | nil => intro acc; simp
  | cons v vs ih =>
      intro acc
      rw [List.foldl_cons, ih]
      simp [processStep]

/-- C8: processing the single target column "Country" inserts a column
"Country_region" immediately to its right in the name sequence, overwrites the
"Country" cells with the resolved canonical names exactly where resolution
produced one (unresolved cells keep their raw value), and leaves every other
column unchanged. -/
theorem column_insertion (df : List (List Char × List (Option (List Char))))
    (am ctr : List Char → Option (List Char)) (names : List (List Char))
    (country : List Char) :
    ((process_columns am ctr names df [country]).1.map Prod.fst
        = insertAt (getLoc df country + 1) (country ++ strL "_region")
            (df.map Prod.fst)) ∧
      (getCol (process_columns am ctr names df [country]).1 country
        = (getCol df country).map
            (fun v => cellOut (normalize_country v am ctr names).1 v)) ∧
      ∀ name, name ≠ country → name ≠ country ++ strL "_region" →
        getCol (process_columns am ctr names df [country]).1 name
          = getCol df name := by
  have hrn : country ++ strL "_region" ≠ country := append_ne_self _ _ (by decide)
  simp only [process_columns, List.foldl_cons, List.foldl_nil]
  refine ⟨?_, ?_, ?_⟩
  · rw [map_insertAt, getLoc_setCol, map_fst_setCol]
  · rw [getCol_insertAt_ne country _ hrn, getCol_setCol_self]
    split
    · rw [processValues, processValues_cells]
      simp
    · rename_i hmem
      rw [getCol_not_mem df country hmem]
      rfl
  · intro name hnc hnr
    rw [getCol_insertAt_ne name _ (fun h => hnr h.symm),
      getCol_setCol_ne _ _ _ _ hnc]

/-- Witness for C8 on a two-column table: "Country" is overwritten where the
alias resolved ("USA") and retained where unmapped ("Xyzzy"), "Country_region"
appears right after "Country", and "Other" is untouched. -/
theorem column_insertion_witness :
    ((process_columns
          (fun k => if k = strL "usa" then some (strL "United States") else none)
          (fun k => if k = strL "United States" then some (strL "North America") else none)
          [] [(strL "Country", [some (strL "USA"), some (strL "Xyzzy")]),
              (strL "Other", [some (strL "a"), none])]
          [strL "Country"]).1.map Prod.fst
        = [strL "Country", strL "Country_region", strL "Other"]) ∧
      (getCol (process_columns
          (fun k => if k = strL "usa" then some (strL "United States") else none)
          (fun k => if k = strL "United States" then some (strL "North America") else none)
          [] [(strL "Country", [some (strL "USA"), some (strL "Xyzzy")]),
              (strL "Other", [some (strL "a"), none])]
          [strL "Country"]).1 (strL "Country")
        = [some (strL "United States"), some (strL "Xyzzy")]) ∧
      (getCol (process_columns
          (fun k => if k = strL "usa" then some (strL "United States") else none)
          (fun k => if k = strL "United States" then some (strL "North America") else none)
          [] [(strL "Country", [some (strL "USA"), some (strL "Xyzzy")]),
              (strL "Other", [some (strL "a"), none])]
          [strL "Country"]).1 (strL "Other")
        = [some (strL "a"), none]) :=
  ⟨((column_insertion _ _ _ _ _).1).trans (by decide),
    ((column_insertion _ _ _ _ _).2.1).trans (by decide),
    ((column_insertion _ _ _ _ _).2.2 (strL "Other") (by decide) (by decide)).trans
      (by decide)⟩

/-- The integral cutoff test agrees with the rational comparison against 0.85. -/
theorem cutoffLe_iff (m T : Nat) : cutoffLe m T = true ↔ (17 : ℚ) / 20 ≤ calcRatio m T := by
  simp only [cutoffLe, decide_eq_true_eq, calcRatio]
  rcases Nat.eq_zero_or_pos T with hT | hT
  · subst hT
    norm_num
  · rw [if_neg (by omega : ¬ T = 0)]
    have hT0 : (0 : ℚ) < T := by exact_mod_cast hT
    rw [div_le_div_iff₀ (by norm_num) hT0]
    constructor
    · intro h
      have hq : (17 * T : ℚ) ≤ (40 * m : ℚ) := by exact_mod_cast h
      linarith
    · intro h
      have hq : (17 * T : ℚ) ≤ (40 * m : ℚ) := by linarith
      exact_mod_cast hq

/-- The size of a multiset intersection as a sum of minimal counts. -/
theorem card_inter_count (s t : Multiset Char) :
    Multiset.card (s ∩ t) = ∑ a ∈ (s + t).toFinset, min (s.count a) (t.count a) := by
  have hsub : (s ∩ t).toFinset ⊆ (s + t).toFinset := by
    intro a ha
    rw [Multiset.mem_toFinset] at ha ⊢
    have := Multiset.mem_of_le (Multiset.inter_le_left s t) ha
    simp [this]
  calc Multiset.card (s ∩ t)
      = ∑ a ∈ (s ∩ t).toFinset, (s ∩ t).count a :=
        (Multiset.toFinset_sum_count_eq _).symm
    _ = ∑ a ∈ (s + t).toFinset, (s ∩ t).count a := by
        refine Finset.sum_subset hsub ?_
        intro x _ hx
        rw [Multiset.count_eq_zero]
        simpa [Multiset.mem_toFinset] using hx
    _ = ∑ a ∈ (s + t).toFinset, min (s.count a) (t.count a) :=
        Finset.sum_congr rfl (fun a _ => Multiset.count_inter a s t)

/-- Intersection size is superadditive with respect to splitting both sides. -/
theorem card_inter_superadd (x y p q : Multiset Char) :
    Multiset.card (x ∩ p) + Multiset.card (y ∩ q)
      ≤ Multiset.card ((x + y) ∩ (p + q)) := by
  rw [card_inter_count, card_inter_count, card_inter_count]
  have hx : ∑ a ∈ (x + p).toFinset, min (x.count a) (p.count a)
      = ∑ a ∈ ((x + y) + (p + q)).toFinset, min (x.count a) (p.count a) := by
    refine Finset.sum_subset ?_ ?_
    · intro a ha
      rw [Multiset.mem_toFinset] at ha ⊢
      rcases Multiset.mem_add.mp ha with h | h
      · exact Multiset.mem_add.mpr (Or.inl (Multiset.mem_add.mpr (Or.inl h)))
      · exact Multiset.mem_add.mpr (Or.inr (Multiset.mem_add.mpr (Or.inl h)))
    · intro a _ ha
      rw [Multiset.mem_toFinset, Multiset.mem_add] at ha
      push_neg at ha
      rw [Multiset.count_eq_zero_of_not_mem ha.1, Multiset.count_eq_zero_of_not_mem ha.2]
      simp
  have hy : ∑ a ∈ (y + q).toFinset, min (y.count a) (q.count a)
      = ∑ a ∈ ((x + y) + (p + q)).toFinset, min (y.count a) (q.count a) := by
    refine Finset.sum_subset ?_ ?_
    · intro a ha
      rw [Multiset.mem_toFinset] at ha ⊢
      rcases Multiset.mem_add.mp ha with h | h
      · exact Multiset.mem_add.mpr (Or.inl (Multiset.mem_add.mpr (Or.inr h)))
      · exact Multiset.mem_add.mpr (Or.inr (Multiset.mem_add.mpr (Or.inr h)))
    · intro a _ ha
      rw [Multiset.mem_toFinset, Multiset.mem_add] at ha
      push_neg at ha
      rw [Multiset.count_eq_zero_of_not_mem ha.1, Multiset.count_eq_zero_of_not_mem ha.2]
      simp
  rw [hx, hy, ← Finset.sum_add_distrib]
  refine Finset.sum_le_sum ?_
  intro a _
  rw [Multiset.count_add, Multiset.count_add]
  omega

/-- The greedy avail-loop count equals the multiset-intersection size. -/
theorem interCount_eq_card (a : List Char) :
    ∀ b : List Char, interCount a b = Multiset.card ((↑a : Multiset Char) ∩ ↑b) := by
  induction a with
  | nil => intro b; simp [interCount, Multiset.zero_inter]
  | cons c a ih =>
      intro b
      rw [interCount]
      split
      · rename_i hc
        rw [ih (b.erase c), ← Multiset.cons_coe,
          Multiset.cons_inter_of_pos _ (Multiset.mem_coe.mpr hc), Multiset.card_cons,
          Multiset.coe_erase]
      · rename_i hc
        rw [ih b, ← Multiset.cons_coe,
          Multiset.cons_inter_of_neg _ (fun h => hc (Multiset.mem_coe.mp h))]

/-- A matching block of the two sequences is matched only once: the total of
SequenceMatcher matching blocks never exceeds the multiset intersection. -/
theorem matchTotalFuel_le_inter (fuel : Nat) :
    ∀ a b : List Char, a.length + b.length ≤ fuel →
      matchTotalFuel fuel a b ≤ Multiset.card ((↑a : Multiset Char) ∩ ↑b) := by
  induction fuel with
  | zero => intro a b _; simp [matchTotalFuel]
  | succ f ih =>
      intro a b hlen
      rw [matchTotalFuel]
      split
      · exact Nat.zero_le _
      · rename_i hk
        have hk1 : 1 ≤ (flm a b).2.2 := Nat.pos_of_ne_zero hk
        have hb := flm_bounds a b hk1
        have hblk : (a.drop (flm a b).1).take (flm a b).2.2
            = (b.drop (flm a b).2.1).take (flm a b).2.2 :=
          lcp_take _ _ (flm_le_lcp a b)
        have hdA : a = a.take (flm a b).1 ++ ((a.drop (flm a b).1).take (flm a b).2.2
            ++ a.drop ((flm a b).1 + (flm a b).2.2)) := by
          conv_lhs => rw [← List.take_append_drop (flm a b).1 a]
          congr 1
          rw [← List.drop_drop, List.take_append_drop]
        have hdB : b = b.take (flm a b).2.1 ++ ((b.drop (flm a b).2.1).take (flm a b).2.2
            ++ b.drop ((flm a b).2.1 + (flm a b).2.2)) := by
          conv_lhs => rw [← List.take_append_drop (flm a b).2.1 b]
          congr 1
          rw [← List.drop_drop, List.take_append_drop]
        have hlblk : ((a.drop (flm a b).1).take (flm a b).2.2).length = (flm a b).2.2 := by
          simp only [List.length_take, List.length_drop]
          omega
        have ihpre := ih (a.take (flm a b).1) (b.take (flm a b).2.1)
          (by simp only [List.length_take]; omega)
        have ihsuf := ih (a.drop ((flm a b).1 + (flm a b).2.2))
          (b.drop ((flm a b).2.1 + (flm a b).2.2))
          (by simp only [List.length_drop]; omega)
        have hself : ((↑((a.drop (flm a b).1).take (flm a b).2.2) : Multiset Char)
            ∩ ↑((a.drop (flm a b).1).take (flm a b).2.2))
            = (↑((a.drop (flm a b).1).take (flm a b).2.2) : Multiset Char) := by
          ext x
          simp [Multiset.count_inter]
        have hcard : (flm a b).2.2
            = Multiset.card ((↑((a.drop (flm a b).1).take (flm a b).2.2) : Multiset Char)
                ∩ ↑((a.drop (flm a b).1).take (flm a b).2.2)) := by
          rw [hself, Multiset.coe_card, hlblk]
        have hsplit1 : Multiset.card ((↑((a.drop (flm a b).1).take (flm a b).2.2) : Multiset Char)
              ∩ ↑((a.drop (flm a b).1).take (flm a b).2.2))
            + Multiset.card ((↑(a.drop ((flm a b).1 + (flm a b).2.2)) : Multiset Char)
              ∩ ↑(b.drop ((flm a b).2.1 + (flm a b).2.2)))
            ≤ Multiset.card
              ((↑((a.drop (flm a b).1).take (flm a b).2.2)
                  + ↑(a.drop ((flm a b).1 + (flm a b).2.2)) : Multiset Char)
                ∩ (↑((a.drop (flm a b).1).take (flm a b).2.2)
                  + ↑(b.drop ((flm a b).2.1 + (flm a b).2.2)))) :=
          card_inter_superadd _ _ _ _
        have hA : (↑(a.take (flm a b).1) : Multiset Char)
            + (↑((a.drop (flm a b).1).take (flm a b).2.2)
              + ↑(a.drop ((flm a b).1 + (flm a b).2.2)))
            = (↑a : Multiset Char) := by
          conv_rhs => rw [hdA]
          rw [← Multiset.coe_add, ← Multiset.coe_add]
        have hB : (↑(b.take (flm a b).2.1) : Multiset Char)
            + (↑((a.drop (flm a b).1).take (flm a b).2.2)
              + ↑(b.drop ((flm a b).2.1 + (flm a b).2.2)))
            = (↑b : Multiset Char) := by
          conv_rhs => rw [hdB]
          rw [hblk, ← Multiset.coe_add, ← Multiset.coe_add]
        have hsplit2 : Multiset.card ((↑(a.take (flm a b).1) : Multiset Char)
              ∩ ↑(b.take (flm a b).2.1))
            + Multiset.card
              ((↑((a.drop (flm a b).1).take (flm a b).2.2)
                  + ↑(a.drop ((flm a b).1 + (flm a b).2.2)) : Multiset Char)
                ∩ (↑((a.drop (flm a b).1).take (flm a b).2.2)
                  + ↑(b.drop ((flm a b).2.1 + (flm a b).2.2))))
            ≤ Multiset.card ((↑a : Multiset Char) ∩ ↑b) := by
          have h := card_inter_superadd (↑(a.take (flm a b).1) : Multiset Char)
            (↑((a.drop (flm a b).1).take (flm a b).2.2)
              + ↑(a.drop ((flm a b).1 + (flm a b).2.2)))
            (↑(b.take (flm a b).2.1) : Multiset Char)
            (↑((a.drop (flm a b).1).take (flm a b).2.2)
              + ↑(b.drop ((flm a b).2.1 + (flm a b).2.2)))
          rw [hA, hB] at h
          exact h
        omega

/-- The matching-block total never exceeds the quick-ratio numerator. -/
theorem matchTotal_le_interCount (a b : List Char) : matchTotal a b ≤ interCount a b := by
  rw [interCount_eq_card]
  exact matchTotalFuel_le_inter _ a b le_rfl

/-- The quick-ratio numerator never exceeds the shorter length. -/
theorem interCount_le_min (a b : List Char) : interCount a b ≤ min a.length b.length := by
  rw [interCount_eq_card]
  refine le_min ?_ ?_
  · have := Multiset.card_le_card (Multiset.inter_le_left (↑a : Multiset Char) ↑b)
    simpa using this
  · have := Multiset.card_le_card (Multiset.inter_le_right (↑a : Multiset Char) ↑b)
    simpa using this

/-- The three-stage gate of get_close_matches accepts a candidate exactly when
its true similarity ratio reaches the cutoff: the two quick ratios are upper
bounds of the true ratio, so they can only confirm, never override, it. -/
theorem gcmGate_iff (x w : List Char) :
    gcmGate x w = true ↔ (17 : ℚ) / 20 ≤ ratioQ x w := by
  unfold gcmGate ratioQ
  constructor
  · intro h
    rw [Bool.and_eq_true, Bool.and_eq_true] at h
    exact (cutoffLe_iff _ _).mp h.2
  · intro h
    have h3 := (cutoffLe_iff (matchTotal x w) (x.length + w.length)).mpr h
    simp only [cutoffLe, decide_eq_true_eq] at h3 ⊢
    have hmi := matchTotal_le_interCount x w
    have him := interCount_le_min x w
    simp only [Bool.and_eq_true, decide_eq_true_eq]
    omega

/-- The score ratio of a scored pair as a rational. -/
theorem calcRatio_eq_crVal (m T : Nat) :
    calcRatio m T = ((crVal m T).1 : ℚ) / ((crVal m T).2 : ℚ) := by
  unfold calcRatio crVal
  split
  · norm_num
  · push_cast
    rfl

theorem crVal_snd_pos (m T : Nat) : (0 : ℚ) < ((crVal m T).2 : ℚ) := by
  unfold crVal
  split
  · norm_num
  · rename_i hT
    exact_mod_cast Nat.pos_of_ne_zero hT

/-- Cross-multiplied strict comparison agrees with the ratio comparison. -/
theorem crLt_iff (p q : Nat × Nat) :
    crLt p q = true ↔ calcRatio p.1 p.2 < calcRatio q.1 q.2 := by
  unfold crLt
  rw [calcRatio_eq_crVal, calcRatio_eq_crVal,
    div_lt_div_iff₀ (crVal_snd_pos p.1 p.2) (crVal_snd_pos q.1 q.2)]
  simp only [decide_eq_true_eq]
  constructor
  · intro h
    exact_mod_cast h
  · intro h
    exact_mod_cast h

/-- Cross-multiplied equality agrees with ratio equality. -/
theorem crEq_iff (p q : Nat × Nat) :
    crEq p q = true ↔ calcRatio p.1 p.2 = calcRatio q.1 q.2 := by
  unfold crEq
  rw [calcRatio_eq_crVal, calcRatio_eq_crVal,
    div_eq_div_iff (ne_of_gt (crVal_snd_pos p.1 p.2)) (ne_of_gt (crVal_snd_pos q.1 q.2))]
  simp only [decide_eq_true_eq]
  constructor
  · intro h
    exact_mod_cast h
  · intro h
    exact_mod_cast h

/-- A tuple judged strictly greater has at least as large a score. -/
theorem pairGt_true_score (p q : (Nat × Nat) × List Char) (h : pairGt p q = true) :
    calcRatio q.1.1 q.1.2 ≤ calcRatio p.1.1 p.1.2 := by
  unfold pairGt at h
  rw [Bool.or_eq_true, Bool.and_eq_true] at h
  rcases h with h | ⟨h, _⟩
  · exact le_of_lt ((crLt_iff q.1 p.1).mp h)
  · exact le_of_eq ((crEq_iff p.1 q.1).mp h).symm

/-- A tuple not judged strictly greater has at most the other's score. -/
theorem pairGt_false_score (p q : (Nat × Nat) × List Char) (h : pairGt p q = false) :
    calcRatio p.1.1 p.1.2 ≤ calcRatio q.1.1 q.1.2 := by
  unfold pairGt at h
  rw [Bool.or_eq_false_iff] at h
  have := h.1
  by_contra hlt
  rw [not_le] at hlt
  rw [(crLt_iff q.1 p.1).mpr hlt] at this
  exact Bool.noConfusion this

theorem foldl_pickStep_isSome (l : List ((Nat × Nat) × List Char)) :
    ∀ q, (l.foldl pickStep (some q)).isSome := by
  induction l with
  | nil => intro q; rfl
  | cons p ps ih =>
      intro q
      rw [List.foldl_cons]
      by_cases hg : pairGt p q = true
      · rw [show pickStep (some q) p = some p by simp [pickStep, hg]]
        exact ih p
      · rw [show pickStep (some q) p = some q by simp [pickStep, Bool.eq_false_iff.mpr hg]]
        exact ih q

/-- A nonempty scored list always yields a maximal element. -/
theorem pickMax_isSome (l : List ((Nat × Nat) × List Char)) (h : l ≠ []) :
    (pickMax l).isSome := by
  cases l with
  | nil => exact absurd rfl h
  | cons p ps => exact foldl_pickStep_isSome ps p

/-- The kept pair belongs to the list and carries the maximal score. -/
theorem pickMax_spec (l : List ((Nat × Nat) × List Char)) (q : (Nat × Nat) × List Char)
    (h : pickMax l = some q) :
    q ∈ l ∧ ∀ p ∈ l, calcRatio p.1.1 p.1.2 ≤ calcRatio q.1.1 q.1.2 := by
  have aux : ∀ (l' : List ((Nat × Nat) × List Char)) (acc : Option ((Nat × Nat) × List Char)),
      l'.foldl pickStep acc = some q →
      (q ∈ l' ∨ acc = some q) ∧ (∀ p ∈ l', calcRatio p.1.1 p.1.2 ≤ calcRatio q.1.1 q.1.2) ∧
        (∀ r, acc = some r → calcRatio r.1.1 r.1.2 ≤ calcRatio q.1.1 q.1.2) := by
    intro l'
    induction l' with
    | nil =>
        intro acc hacc
        refine ⟨Or.inr hacc, by simp, ?_⟩
        intro r hr
        rw [hr] at hacc
        cases hacc
        exact le_refl _
    | cons p ps ih =>
        intro acc hacc
        rw [List.foldl_cons] at hacc
        obtain ⟨hmem, hall, hstep⟩ := ih (pickStep acc p) hacc
        have hp_le : calcRatio p.1.1 p.1.2 ≤ calcRatio q.1.1 q.1.2 := by
          cases acc with
          | none => exact hstep p rfl
          | some r =>
              by_cases hg : pairGt p r = true
              · exact hstep p (by simp [pickStep, hg])
              · have hr_le := hstep r (by simp [pickStep, Bool.eq_false_iff.mpr hg])
                have hg' : pairGt p r = false := Bool.eq_false_iff.mpr hg
                exact le_trans (pairGt_false_score p r hg') hr_le
        refine ⟨?_, ?_, ?_⟩
        · rcases hmem with hmem | hmem
          · exact Or.inl (List.mem_cons_of_mem p hmem)
          · cases acc with
            | none =>
                simp only [pickStep] at hmem
                cases hmem
                exact Or.inl (List.mem_cons_self _ _)
            | some r =>
                by_cases hg : pairGt p r = true
                · rw [show pickStep (some r) p = some p by simp [pickStep, hg]] at hmem
                  cases hmem
                  exact Or.inl (List.mem_cons_self _ _)
                · rw [show pickStep (some r) p = some r by
                    simp [pickStep, Bool.eq_false_iff.mpr hg]] at hmem
                  exact Or.inr hmem
        · intro x hx
          rcases List.mem_cons.mp hx with rfl | hx
          · exact hp_le
          · exact hall x hx
        · intro r hr
          subst hr
          by_cases hg : pairGt p r = true
          · exact le_trans (pairGt_true_score p r hg) hp_le
          · exact hstep r (by simp [pickStep, Bool.eq_false_iff.mpr hg])
  obtain ⟨hmem, hall, _⟩ := aux l none h
  rcases hmem with hmem | hmem
  · exact ⟨hmem, hall⟩
  · exact Option.noConfusion hmem

/-- Membership in the scored candidate list. -/
theorem gcmScored_mem (word : List Char) (poss : List (List Char))
    (p : (Nat × Nat) × List Char) :
    p ∈ gcmScored word poss ↔
      p.2 ∈ poss ∧ gcmGate p.2 word = true ∧
        p.1 = (matchTotal p.2 word, p.2.length + word.length) := by
  unfold gcmScored
  rw [List.mem_filterMap]
  constructor
  · rintro ⟨x, hx, hfx⟩
    by_cases hg : gcmGate x word = true
    · rw [if_pos hg] at hfx
      cases hfx
      exact ⟨hx, hg, rfl⟩
    · rw [if_neg hg] at hfx
      exact Option.noConfusion hfx
  · rintro ⟨hmem, hg, hp⟩
    refine ⟨p.2, hmem, ?_⟩
    rw [if_pos hg]
    exact congrArg some (Prod.ext hp.symm rfl)

/-- The scored list is empty exactly when no candidate passes the gate. -/
theorem gcmScored_eq_nil (word : List Char) (poss : List (List Char)) :
    gcmScored word poss = [] ↔ ∀ x ∈ poss, gcmGate x word = false := by
  unfold gcmScored
  rw [List.filterMap_eq_nil_iff]
  constructor
  · intro h x hx
    have := h x hx
    by_cases hg : gcmGate x word = true
    · rw [if_pos hg] at this
      exact Option.noConfusion this
    · exact Bool.eq_false_iff.mpr hg
  · intro h x hx
    rw [if_neg (by rw [h x hx]; exact Bool.noConfusion)]

/-- Acceptance half of the fuzzy tier: if some candidate reaches the cutoff,
the tier succeeds with MatchKind "fuzzy", recovering the first canonical name
whose no-space cleaned form is the top-scored candidate; that candidate is the
single top-1 match. -/
theorem fuzzyTier_accepts (no_space : List Char) (ctr : List Char → Option (List Char))
    (names : List (List Char))
    (h : ∃ p ∈ names.map cleanNS, (17 : ℚ) / 20 ≤ ratioQ p no_space) :
    ∃ name ∈ names,
      fuzzyTier no_space ctr names = (some name, ctr name, MatchKind.fuzzy) ∧
        (17 : ℚ) / 20 ≤ ratioQ (cleanNS name) no_space ∧
        ∀ p ∈ names.map cleanNS, ratioQ p no_space ≤ ratioQ (cleanNS name) no_space := by
  obtain ⟨p0, hp0mem, hp0⟩ := h
  have hgate0 : gcmGate p0 no_space = true := (gcmGate_iff _ _).mpr hp0
  have hscne : gcmScored no_space (names.map cleanNS) ≠ [] := by
    intro hnil
    rw [gcmScored_eq_nil] at hnil
    rw [hnil p0 hp0mem] at hgate0
    exact Bool.noConfusion hgate0
  obtain ⟨q, hq⟩ := Option.isSome_iff_exists.mp (pickMax_isSome _ hscne)
  obtain ⟨hqmem, hqmax⟩ := pickMax_spec _ q hq
  rw [gcmScored_mem] at hqmem
  obtain ⟨hq2mem, hq2gate, hq1⟩ := hqmem
  have hfind : (names.find? (fun n => cleanNS n == q.2)).isSome := by
    rw [List.find?_isSome]
    obtain ⟨n0, hn0, hcn0⟩ := List.mem_map.mp hq2mem
    exact ⟨n0, hn0, by simp [hcn0]⟩
  obtain ⟨name, hname⟩ := Option.isSome_iff_exists.mp hfind
  have hnamemem : name ∈ names := List.mem_of_find?_eq_some hname
  have hnameeq : cleanNS name = q.2 := by simpa using List.find?_some hname
  have hqscore : calcRatio q.1.1 q.1.2 = ratioQ q.2 no_space := by
    rw [hq1]
    rfl
  refine ⟨name, hnamemem, ?_, ?_, ?_⟩
  · unfold fuzzyTier get_close_matches1
    rw [hq]
    simp [hname]
  · rw [hnameeq]
    exact (gcmGate_iff _ _).mp hq2gate
  · intro p hpmem
    rw [hnameeq]
    by_cases hg : gcmGate p no_space = true
    · have hp_in : ((matchTotal p no_space, p.length + no_space.length), p)
          ∈ gcmScored no_space (names.map cleanNS) := by
        rw [gcmScored_mem]
        exact ⟨hpmem, hg, rfl⟩
      have hle := hqmax _ hp_in
      rw [hqscore] at hle
      exact hle
    · have hplt : ratioQ p no_space < 17 / 20 := by
        by_contra hge
        rw [not_lt] at hge
        exact hg ((gcmGate_iff _ _).mpr hge)
      have hqge : (17 : ℚ) / 20 ≤ ratioQ q.2 no_space := (gcmGate_iff _ _).mp hq2gate
      exact le_trans (le_of_lt hplt) hqge

/-- Rejection half of the fuzzy tier: when every candidate falls short of the
cutoff, the tier returns (none, none, "unmapped"). -/
theorem fuzzyTier_rejects (no_space : List Char) (ctr : List Char → Option (List Char))
    (names : List (List Char))
    (h : ∀ p ∈ names.map cleanNS, ratioQ p no_space < (17 : ℚ) / 20) :
    fuzzyTier no_space ctr names = (none, none, MatchKind.unmapped) := by
  have hnil : gcmScored no_space (names.map cleanNS) = [] := by
    rw [gcmScored_eq_nil]
    intro x hx
    by_cases hg : gcmGate x no_space = true
    · exact absurd ((gcmGate_iff _ _).mp hg) (not_le.mpr (h x hx))
    · exact Bool.eq_false_iff.mpr hg
  unfold fuzzyTier get_close_matches1
  rw [hnil]
  rfl

/-- When the empty-check passes and the alias and first-word tiers all miss,
the resolver result is the fuzzy tier's. -/
theorem normalize_country_fuzzy_tier (r : List Char)
    (am ctr : List Char → Option (List Char)) (names : List (List Char))
    (hne : stripWs r ≠ [])
    (h1 : hitValue am (clean_text r) = none)
    (h2 : hitValue am (noSpaceOf (clean_text r)) = none)
    (h3 : ∀ first, (pySplit (clean_text r)).head? = some first → hitValue am first = none) :
    normalize_country (some r) am ctr names
      = fuzzyTier (noSpaceOf (clean_text r)) ctr names := by
  cases hh : (pySplit (clean_text r)).head? with
  | none => simp [normalize_country, List.isEmpty_iff, hne, h1, h2, hh]
  | some first => simp [normalize_country, List.isEmpty_iff, hne, h1, h2, hh, h3 first hh]

/-- C2: once the alias and first-word tiers miss, the resolver accepts exactly
when some candidate's similarity ratio against the no-space cleaned input
reaches the 0.85 cutoff (so a ratio of exactly 17/20 is accepted), it returns
(none, none, "unmapped") when every ratio is strictly below the cutoff, and any
returned canonical name is the single top-1 match: its no-space cleaned form
scores at least the cutoff and at least every other candidate. -/
theorem fuzzy_threshold (r : List Char) (am ctr : List Char → Option (List Char))
    (names : List (List Char)) (hne : stripWs r ≠ [])
    (h1 : hitValue am (clean_text r) = none)
    (h2 : hitValue am (noSpaceOf (clean_text r)) = none)
    (h3 : ∀ first, (pySplit (clean_text r)).head? = some first → hitValue am first = none) :
    ((normalize_country (some r) am ctr names).2.2 = MatchKind.fuzzy ↔
        ∃ p ∈ names.map cleanNS, (17 : ℚ) / 20 ≤ ratioQ p (noSpaceOf (clean_text r))) ∧
      ((∀ p ∈ names.map cleanNS, ratioQ p (noSpaceOf (clean_text r)) < (17 : ℚ) / 20) →
        normalize_country (some r) am ctr names = (none, none, MatchKind.unmapped)) ∧
      (∀ name, (normalize_country (some r) am ctr names).1 = some name →
        (17 : ℚ) / 20 ≤ ratioQ (cleanNS name) (noSpaceOf (clean_text r)) ∧
          ∀ p ∈ names.map cleanNS,
            ratioQ p (noSpaceOf (clean_text r))
              ≤ ratioQ (cleanNS name) (noSpaceOf (clean_text r))) := by
  have heq := normalize_country_fuzzy_tier r am ctr names hne h1 h2 h3
  by_cases hex : ∃ p ∈ names.map cleanNS,
      (17 : ℚ) / 20 ≤ ratioQ p (noSpaceOf (clean_text r))
  · obtain ⟨name, hmem, hres, hge, hmax⟩ := fuzzyTier_accepts _ ctr names hex
    refine ⟨⟨fun _ => hex, fun _ => ?_⟩, ?_, ?_⟩
    · rw [heq, hres]
    · intro hall
      obtain ⟨p0, hp0, hge0⟩ := hex
      exact absurd hge0 (not_le.mpr (hall p0 hp0))
    · intro nm hnm
      rw [heq, hres] at hnm
      cases hnm
      exact ⟨hge, hmax⟩
  · have hall : ∀ p ∈ names.map cleanNS,
        ratioQ p (noSpaceOf (clean_text r)) < (17 : ℚ) / 20 := by
      intro p hp
      by_contra hge
      rw [not_lt] at hge
      exact hex ⟨p, hp, hge⟩
    have hrej := fuzzyTier_rejects (noSpaceOf (clean_text r)) ctr names hall
    refine ⟨⟨fun hf => ?_, fun hexx => absurd hexx hex⟩, fun _ => by rw [heq, hrej], ?_⟩
    · rw [heq, hrej] at hf
      exact absurd hf (by simp)
    · intro nm hnm
      rw [heq, hrej] at hnm
      exact Option.noConfusion hnm

/-- Witness for C2: with empty alias data, "brazi" reaches the cutoff against
the registry name "Brazil" (ratio 10/11) and resolves as fuzzy, while "brasil"
scores 5/6 < 0.85 against it and resolves as unmapped. -/
theorem fuzzy_threshold_witness :
    (normalize_country (some (strL "brazi")) (fun _ => none) (fun _ => none)
        [strL "Brazil"]).2.2 = MatchKind.fuzzy ∧
      normalize_country (some (strL "brasil")) (fun _ => none) (fun _ => none)
        [strL "Brazil"] = (none, none, MatchKind.unmapped) := by
  constructor
  · refine ((fuzzy_threshold (strL "brazi") (fun _ => none) (fun _ => none)
      [strL "Brazil"] (by decide) rfl rfl (fun first _ => rfl)).1).mpr ?_
    refine ⟨strL "brazil", by decide, ?_⟩
    have hw : noSpaceOf (clean_text (strL "brazi")) = strL "brazi" := by decide
    rw [hw]
    exact (cutoffLe_iff _ _).mp (by decide)
  · refine (fuzzy_threshold (strL "brasil") (fun _ => none) (fun _ => none)
      [strL "Brazil"] (by decide) rfl rfl (fun first _ => rfl)).2.1 ?_
    intro p hp
    have hp' : p = strL "brazil" := by
      have : (List.map cleanNS [strL "Brazil"]) = [strL "brazil"] := by decide
      rw [this] at hp
      simpa using hp
    subst hp'
    have hw : noSpaceOf (clean_text (strL "brasil")) = strL "brasil" := by decide
    rw [hw]
    by_contra hge
    rw [not_lt] at hge
    have := (cutoffLe_iff (matchTotal (strL "brazil") (strL "brasil"))
      ((strL "brazil").length + (strL "brasil").length)).mpr hge
    exact absurd this (by decide)

/-- Whitespace characters are not word characters. -/
theorem isWordChar_of_isPySpace (c : Char) (h : isPySpace c = true) :
    isWordChar c = false := by
  simp only [isPySpace, Bool.or_eq_true, decide_eq_true_eq] at h
  rcases h with ((((h | h) | h) | h) | h) | h <;> subst h <;> decide

/-- Every character produced by decomposing and lowercasing is in normal form:
another NFKD-plus-lower pass leaves it unchanged. -/
theorem invChar_pyLower_pyNFKD (e d : Char) (h : d ∈ pyNFKD e) :
    invChar (pyLower d) = true := by
  unfold pyNFKD at h
  cases hfind : nfkdTable.find? (fun p => p.1 == e) with
  | some p =>
      rw [hfind] at h
      simp only [Option.map_some', Option.getD_some] at h
      have hall : nfkdTable.all (fun p => p.2.all (fun d => invChar (pyLower d))) = true := by
        decide
      have hp := List.mem_of_find?_eq_some hfind
      have := (List.all_eq_true.mp ((List.all_eq_true.mp hall) p hp)) d h
      exact this
  | none =>
      rw [hfind] at h
      simp only [Option.map_none', Option.getD_none, List.mem_singleton] at h
      rw [h]
      cases hl : lowerTable.find? (fun p => p.1 == e) with
      | none =>
          have h1 : pyNFKD e = [e] := by
            unfold pyNFKD
            rw [hfind]
            rfl
          have h2 : pyLower e = e := by
            unfold pyLower
            rw [hl]
            rfl
          rw [h2]
          unfold invChar
          rw [h1, h2]
          simp
      | some q =>
          have hq1 : q.1 = e := by simpa using List.find?_some hl
          have h2 : pyLower e = q.2 := by
            unfold pyLower
            rw [hl]
            rfl
          have hbulk : lowerTable.all
              (fun q => ((nfkdTable.find? (fun p => p.1 == q.1)).isSome) || invChar q.2)
              = true := by decide
          have hq := (List.all_eq_true.mp hbulk) q (List.mem_of_find?_eq_some hl)
          rw [Bool.or_eq_true] at hq
          rcases hq with hq | hq
          · rw [hq1, hfind] at hq
            exact Bool.noConfusion hq
          · rw [h2]
            exact hq

/-- Characters of a stripped string come from the original. -/
theorem mem_stripWs {c : Char} {u : List Char} (h : c ∈ stripWs u) : c ∈ u := by
  unfold stripWs at h
  rw [List.mem_reverse] at h
  have h2 := (List.dropWhile_sublist _).mem h
  rw [List.mem_reverse] at h2
  exact (List.dropWhile_sublist _).mem h2

/-- Inversion of the leading-article helper. -/
theorem theBody_eq_some {u v : List Char} (h : theBody u = some v) :
    ∃ c rest, u = 't' :: 'h' :: 'e' :: c :: rest ∧ isPySpace c = true ∧
      v = (c :: rest).dropWhile isPySpace := by
  unfold theBody at h
  split at h
  · rename_i c rest
    split at h
    · rename_i hsp
      cases h
      exact ⟨c, rest, rfl, hsp, rfl⟩
    · exact Option.noConfusion h
  · exact Option.noConfusion h

/-- Characters survive removal of a leading article. -/
theorem mem_dropLeadingThe {c : Char} {u : List Char} (h : c ∈ dropLeadingThe u) :
    c ∈ u := by
  unfold dropLeadingThe at h
  cases htb : theBody u with
  | none => rwa [htb] at h
  | some v =>
      rw [htb] at h
      simp only [Option.getD_some] at h
      obtain ⟨d, rest, hu, _, hv⟩ := theBody_eq_some htb
      rw [hv] at h
      have := (List.dropWhile_sublist _).mem h
      rw [hu]
      exact List.mem_cons_of_mem _ (List.mem_cons_of_mem _ (List.mem_cons_of_mem _ this))

/-- Unfolding one segment of a rebuilt string. -/
theorem flattenSegs_cons (seg : List Char ⊕ Char) (l : List (List Char ⊕ Char)) :
    flattenSegs (seg :: l)
      = (match seg with | Sum.inl r => r | Sum.inr c => [c]) ++ flattenSegs l := by
  unfold flattenSegs
  rw [List.flatMap_cons]

/-- Rebuilding the segments of a string yields the pending run plus the rest. -/
theorem flattenSegs_segsAux (v : List Char) :
    ∀ acc, flattenSegs (segsAux acc v) = acc ++ v := by
  induction v with
  | nil =>
      intro acc
      unfold segsAux
      by_cases hacc : acc.isEmpty
      · rw [if_pos hacc]
        rw [List.isEmpty_iff] at hacc
        simp [hacc, flattenSegs]
      · rw [if_neg hacc]
        simp [flattenSegs]
  | cons c cs ih =>
      intro acc
      unfold segsAux
      by_cases hw : isWordChar c
      · rw [if_pos hw, ih]
        simp
      · rw [if_neg hw]
        by_cases hacc : acc.isEmpty
        · rw [if_pos hacc]
          rw [List.isEmpty_iff] at hacc
          subst hacc
          rw [List.nil_append, flattenSegs_cons, ih []]
          simp
        · rw [if_neg hacc]
          rw [List.singleton_append, flattenSegs_cons, flattenSegs_cons, ih []]
          simp [flattenSegs]

/-- Characters of the filler substitution are original characters or spaces. -/
theorem mem_fillerSub {c : Char} {u : List Char} (h : c ∈ fillerSub u) :
    c ∈ u ∨ c = ' ' := by
  unfold fillerSub at h
  have haux : ∀ l : List (List Char ⊕ Char),
      c ∈ flattenSegs (l.map fillerSeg) → c ∈ flattenSegs l ∨ c = ' ' := by
    intro l
    induction l with
    | nil => intro hl; simp [flattenSegs] at hl
    | cons seg rest ih =>
        intro hl
        rw [List.map_cons, flattenSegs_cons] at hl
        rcases List.mem_append.mp hl with hl | hl
        · cases seg with
          | inr d =>
              rw [show fillerSeg (Sum.inr d) = Sum.inr d from rfl] at hl
              rw [flattenSegs_cons]
              exact Or.inl (List.mem_append.mpr (Or.inl hl))
          | inl w =>
              by_cases hf : isFiller w = true
              · rw [show fillerSeg (Sum.inl w) = Sum.inr ' ' by
                  simp [fillerSeg, hf]] at hl
                simp at hl
                exact Or.inr hl
              · rw [show fillerSeg (Sum.inl w) = Sum.inl w by
                  simp [fillerSeg, hf]] at hl
                rw [flattenSegs_cons]
                exact Or.inl (List.mem_append.mpr (Or.inl hl))
        · rcases ih hl with hh | hh
          · rw [flattenSegs_cons]
            exact Or.inl (List.mem_append.mpr (Or.inr hh))
          · exact Or.inr hh
  rcases haux _ h with hh | hh
  · rw [show flattenSegs (segs u) = u from flattenSegs_segsAux u []] at hh
    exact Or.inl hh
  · exact Or.inr hh

/-- Characters of the punctuation pass are unchanged word or space characters,
or replacement spaces. -/
theorem mem_punctToSpace {c : Char} {u : List Char} (h : c ∈ punctToSpace u) :
    (c ∈ u ∧ (isWordChar c || isPySpace c) = true) ∨ c = ' ' := by
  unfold punctToSpace at h
  obtain ⟨d, hd, heq⟩ := List.mem_map.mp h
  by_cases hdw : (isWordChar d || isPySpace d) = true
  · rw [if_pos hdw] at heq
    subst heq
    exact Or.inl ⟨hd, hdw⟩
  · rw [if_neg hdw] at heq
    exact Or.inr heq.symm

/-- Characters of the collapse pass are non-space originals or single spaces. -/
theorem mem_collapseAux {c : Char} (u : List Char) :
    ∀ flag, c ∈ collapseAux flag u → (c ∈ u ∧ isPySpace c = false) ∨ c = ' ' := by
  induction u with
  | nil => intro flag h; simp [collapseAux] at h
  | cons d cs ih =>
      intro flag h
      unfold collapseAux at h
      split at h
      · rcases List.mem_append.mp h with h | h
        · split at h
          · simp at h
          · simp at h
            exact Or.inr h
        · rcases ih true h with ⟨hm, hs⟩ | hh
          · exact Or.inl ⟨List.mem_cons_of_mem _ hm, hs⟩
          · exact Or.inr hh
      · rename_i hd
        rcases List.mem_cons.mp h with rfl | h
        · exact Or.inl ⟨List.mem_cons_self _ _, Bool.eq_false_iff.mpr hd⟩
        · rcases ih false h with ⟨hm, hs⟩ | hh
          · exact Or.inl ⟨List.mem_cons_of_mem _ hm, hs⟩
          · exact Or.inr hh

/-- Characters of the decomposed, lowercased string are in normal form. -/
theorem invChar_base (s : List Char) :
    ∀ c ∈ (s.flatMap pyNFKD).map pyLower, invChar c = true := by
  intro c hc
  obtain ⟨d, hd, heq⟩ := List.mem_map.mp hc
  obtain ⟨e, _, hde⟩ := List.mem_flatMap.mp hd
  rw [← heq]
  exact invChar_pyLower_pyNFKD e d hde

/-- Every character of a cleaned string is a normal-form word character or a
single space. -/
theorem clean_text_chars (s : List Char) :
    ∀ c ∈ clean_text s, invChar c = true ∧ (isWordChar c = true ∨ c = ' ') := by
  intro c hc
  unfold clean_text at hc
  have h1 := mem_stripWs hc
  rcases mem_collapseAux _ false h1 with ⟨h2, hcs⟩ | rfl
  · rcases mem_punctToSpace h2 with ⟨h3, hwp⟩ | rfl
    · have hw : isWordChar c = true := by
        rw [Bool.or_eq_true] at hwp
        rcases hwp with hh | hh
        · exact hh
        · rw [hh] at hcs
          exact Bool.noConfusion hcs
      rcases mem_fillerSub h3 with h4 | rfl
      · have h5 := mem_stripWs (mem_dropLeadingThe h4)
        exact ⟨invChar_base s c h5, Or.inl hw⟩
      · exact absurd hcs (by decide)
    · exact absurd hcs (by decide)
  · exact ⟨by decide, Or.inr rfl⟩

/-- Dropping leading whitespace leaves a string that does not start with it. -/
theorem headNotSpace_dropWhile (l : List Char) :
    headNotSpace (l.dropWhile isPySpace) = true := by
  induction l with
  | nil => rfl
  | cons c cs ih =>
      rw [List.dropWhile_cons]
      split
      · exact ih
      · rename_i hc
        simp [headNotSpace, Bool.eq_false_iff.mpr hc]

/-- Not starting with whitespace transfers to prefixes. -/
theorem headNotSpace_of_prefix {t v : List Char} (hp : t <+: v)
    (h : headNotSpace v = true) : headNotSpace t = true := by
  obtain ⟨r, hr⟩ := hp
  cases t with
  | nil => rfl
  | cons c cs =>
      rw [← hr] at h
      exact h

/-- Absence of double whitespace transfers to tails. -/
theorem noDouble_tail {c : Char} {l : List Char}
    (h : noDoubleSpace (c :: l) = true) : noDoubleSpace l = true := by
  cases l with
  | nil => rfl
  | cons d ds =>
      rw [show noDoubleSpace (c :: d :: ds)
          = (!(isPySpace c && isPySpace d) && noDoubleSpace (d :: ds)) from rfl,
        Bool.and_eq_true] at h
      exact h.2

/-- Absence of double whitespace transfers to suffixes. -/
theorem noDouble_suffix (pre : List Char) :
    ∀ l, noDoubleSpace (pre ++ l) = true → noDoubleSpace l = true := by
  induction pre with
  | nil => intro l h; exact h
  | cons c cs ih =>
      intro l h
      exact ih l (noDouble_tail h)

/-- Absence of double whitespace transfers to prefixes. -/
theorem noDouble_prefix_append :
    ∀ (t rest : List Char), noDoubleSpace (t ++ rest) = true → noDoubleSpace t = true := by
  intro t
  induction t with
  | nil => intro rest _; rfl
  | cons c cs ih =>
      intro rest h
      cases cs with
      | nil => rfl
      | cons d ds =>
          rw [List.cons_append, List.cons_append,
            show noDoubleSpace (c :: d :: (ds ++ rest))
              = (!(isPySpace c && isPySpace d) && noDoubleSpace (d :: (ds ++ rest))) from rfl,
            Bool.and_eq_true] at h
          show (!(isPySpace c && isPySpace d) && noDoubleSpace (d :: ds)) = true
          rw [Bool.and_eq_true]
          exact ⟨h.1, ih rest (by rw [List.cons_append]; exact h.2)⟩

/-- Prepending a character preserves single-spacing when it is not whitespace
or the rest does not start with whitespace. -/
theorem noDouble_cons (c : Char) (X : List Char) (h1 : noDoubleSpace X = true)
    (h2 : isPySpace c = false ∨ headNotSpace X = true) :
    noDoubleSpace (c :: X) = true := by
  cases X with
  | nil => rfl
  | cons d ds =>
      show (!(isPySpace c && isPySpace d) && noDoubleSpace (d :: ds)) = true
      rw [Bool.and_eq_true]
      refine ⟨?_, h1⟩
      rcases h2 with h2 | h2
      · simp [h2]
      · simp only [headNotSpace, Bool.not_eq_true'] at h2
        simp [h2]

/-- The collapse pass leaves no double whitespace; after a space was just
emitted, its output does not start with whitespace. -/
theorem collapseAux_spec (u : List Char) :
    ∀ flag, noDoubleSpace (collapseAux flag u) = true ∧
      (flag = true → headNotSpace (collapseAux flag u) = true) := by
  induction u with
  | nil => intro flag; exact ⟨rfl, fun _ => rfl⟩
  | cons c cs ih =>
      intro flag
      unfold collapseAux
      by_cases hc : isPySpace c = true
      · rw [if_pos hc]
        cases flag with
        | true =>
            rw [show (if true = true then ([] : List Char) else [' ']) = [] from rfl,
              List.nil_append]
            exact ⟨(ih true).1, fun _ => (ih true).2 rfl⟩
        | false =>
            rw [show (if false = true then ([] : List Char) else [' ']) = [' '] from rfl,
              List.singleton_append]
            refine ⟨?_, ?_⟩
            · exact noDouble_cons _ _ (ih true).1 (Or.inr ((ih true).2 rfl))
            · intro h
              exact Bool.noConfusion h
      · rw [if_neg hc]
        have hc' : isPySpace c = false := Bool.eq_false_iff.mpr hc
        refine ⟨?_, ?_⟩
        · exact noDouble_cons _ _ (ih false).1 (Or.inl hc')
        · intro _
          simp [headNotSpace, hc']

/-- Stripping a singly-spaced string leaves it singly spaced with no leading
or trailing whitespace. -/
theorem stripWs_spec (x : List Char) (hnd : noDoubleSpace x = true) :
    noDoubleSpace (stripWs x) = true ∧ headNotSpace (stripWs x) = true ∧
      headNotSpace (stripWs x).reverse = true := by
  have hy : noDoubleSpace (x.dropWhile isPySpace) = true := by
    obtain ⟨pre, hpre⟩ := List.dropWhile_suffix (l := x) isPySpace
    exact noDouble_suffix pre _ (by rw [hpre]; exact hnd)
  have hrev : (stripWs x).reverse = (x.dropWhile isPySpace).reverse.dropWhile isPySpace := by
    unfold stripWs
    rw [List.reverse_reverse]
  have hpref : stripWs x <+: x.dropWhile isPySpace := by
    have hsuf : (x.dropWhile isPySpace).reverse.dropWhile isPySpace
        <:+ (x.dropWhile isPySpace).reverse := List.dropWhile_suffix isPySpace
    have := List.reverse_prefix.mpr hsuf
    rw [List.reverse_reverse] at this
    exact this
  refine ⟨?_, ?_, ?_⟩
  · obtain ⟨r, hr⟩ := hpref
    exact noDouble_prefix_append _ r (by rw [hr]; exact hy)
  · exact headNotSpace_of_prefix hpref (headNotSpace_dropWhile x)
  · rw [hrev]
    exact headNotSpace_dropWhile _

/-- A cleaned string is singly spaced with no leading or trailing whitespace. -/
theorem clean_text_spaced (s : List Char) :
    noDoubleSpace (clean_text s) = true ∧ headNotSpace (clean_text s) = true ∧
      headNotSpace (clean_text s).reverse = true := by
  unfold clean_text
  exact stripWs_spec _ (collapseAux_spec _ false).1

/-- Segmenting step on a word character: the run grows. -/
theorem segsAux_cons_word {c : Char} (h : isWordChar c = true) (acc cs : List Char) :
    segsAux acc (c :: cs) = segsAux (acc ++ [c]) cs := by
  conv_lhs => rw [segsAux]
  rw [if_pos h]

/-- Segmenting step on a non-word character: the run is emitted. -/
theorem segsAux_cons_nonword {c : Char} (h : isWordChar c = false) (acc cs : List Char) :
    segsAux acc (c :: cs)
      = (if acc.isEmpty then [] else [Sum.inl acc]) ++ Sum.inr c :: segsAux [] cs := by
  conv_lhs => rw [segsAux]
  rw [if_neg (by rw [h]; exact Bool.noConfusion)]

/-- Word-run step of the word collector on a word character. -/
theorem wordsFrom_cons_word {c : Char} (h : isWordChar c = true) (acc cs : List Char) :
    wordsFrom acc (c :: cs) = wordsFrom (acc ++ [c]) cs := by
  unfold wordsFrom
  rw [segsAux_cons_word h]

/-- Word-run step of the word collector on a non-word character. -/
theorem wordsFrom_cons_nonword {c : Char} (h : isWordChar c = false) (acc cs : List Char) :
    wordsFrom acc (c :: cs) = (if acc.isEmpty then [] else [acc]) ++ wordsFrom [] cs := by
  unfold wordsFrom
  rw [segsAux_cons_nonword h, List.filterMap_append, List.filterMap_cons]
  by_cases hacc : acc.isEmpty = true
  · simp [hacc, segWord]
  · simp [hacc, segWord]

/-- Word runs of the empty remainder. -/
theorem wordsFrom_nil (acc : List Char) :
    wordsFrom acc [] = if acc.isEmpty then [] else [acc] := by
  unfold wordsFrom segsAux
  split <;> simp [segWord]

/-- The punctuation pass does not change the word runs: word characters are
kept verbatim and non-word characters stay non-word. -/
theorem wordsFrom_punctToSpace (u : List Char) :
    ∀ acc, wordsFrom acc (punctToSpace u) = wordsFrom acc u := by
  induction u with
  | nil => intro acc; rfl
  | cons c cs ih =>
      intro acc
      rw [show punctToSpace (c :: cs)
          = (if (isWordChar c || isPySpace c) = true then c else ' ') :: punctToSpace cs
        from rfl]
      by_cases hw : isWordChar c = true
      · rw [if_pos (by rw [hw]; rfl), wordsFrom_cons_word hw, wordsFrom_cons_word hw]
        exact ih (acc ++ [c])
      · have hw' : isWordChar c = false := Bool.eq_false_iff.mpr hw
        have hfw : isWordChar (if (isWordChar c || isPySpace c) = true then c else ' ')
            = false := by
          split
          · exact hw'
          · decide
        rw [wordsFrom_cons_nonword hfw, wordsFrom_cons_nonword hw', ih []]

/-- The collapse pass does not change the word runs: non-space characters stay
verbatim and every whitespace run keeps one separating space. -/
theorem wordsFrom_collapseAux (u : List Char) :
    ∀ (acc : List Char) (flag : Bool), (flag = true → acc = []) →
      wordsFrom acc (collapseAux flag u) = wordsFrom acc u := by
  induction u with
  | nil => intro acc flag _; rfl
  | cons c cs ih =>
      intro acc flag hcond
      unfold collapseAux
      by_cases hc : isPySpace c = true
      · have hcw : isWordChar c = false := isWordChar_of_isPySpace c hc
        rw [if_pos hc]
        cases flag with
        | true =>
            have hacc := hcond rfl
            subst hacc
            rw [show (if true = true then ([] : List Char) else [' ']) = [] from rfl,
              List.nil_append, ih [] true (fun _ => rfl), wordsFrom_cons_nonword hcw]
            simp
        | false =>
            rw [show (if false = true then ([] : List Char) else [' ']) = [' '] from rfl,
              List.singleton_append, wordsFrom_cons_nonword (by decide : isWordChar ' ' = false),
              wordsFrom_cons_nonword hcw, ih [] true (fun _ => rfl)]
      · rw [if_neg hc]
        by_cases hw : isWordChar c = true
        · rw [wordsFrom_cons_word hw, wordsFrom_cons_word hw]
          exact ih (acc ++ [c]) false (fun hh => Bool.noConfusion hh)
        · have hw' : isWordChar c = false := Bool.eq_false_iff.mpr hw
          rw [wordsFrom_cons_nonword hw', wordsFrom_cons_nonword hw',
            ih [] false (fun hh => Bool.noConfusion hh)]

/-- A string of whitespace contributes no word beyond the pending run. -/
theorem wordsFrom_spaces (w : List Char) :
    ∀ acc, (∀ c ∈ w, isPySpace c = true) → wordsFrom acc w = wordsFrom acc [] := by
  induction w with
  | nil => intro acc _; rfl
  | cons c ws ih =>
      intro acc hsp
      have hcw : isWordChar c = false :=
        isWordChar_of_isPySpace c (hsp c (List.mem_cons_self _ _))
      rw [wordsFrom_cons_nonword hcw,
        ih [] (fun d hd => hsp d (List.mem_cons_of_mem _ hd)),
        wordsFrom_nil, wordsFrom_nil]
      simp

/-- Leading whitespace contributes no word runs. -/
theorem wordsOf_spaces_prefix (w : List Char) :
    ∀ v, (∀ c ∈ w, isPySpace c = true) → wordsOf (w ++ v) = wordsOf v := by
  induction w with
  | nil => intro v _; rfl
  | cons c ws ih =>
      intro v hsp
      have hcw : isWordChar c = false :=
        isWordChar_of_isPySpace c (hsp c (List.mem_cons_self _ _))
      rw [List.cons_append]
      unfold wordsOf
      rw [wordsFrom_cons_nonword hcw]
      simp only [List.isEmpty_nil, if_true, List.nil_append]
      exact ih v (fun d hd => hsp d (List.mem_cons_of_mem _ hd))

/-- Trailing whitespace contributes no word runs. -/
theorem wordsFrom_spaces_suffix (v : List Char) :
    ∀ (w acc : List Char), (∀ c ∈ w, isPySpace c = true) →
      wordsFrom acc (v ++ w) = wordsFrom acc v := by
  induction v with
  | nil =>
      intro w acc hsp
      exact wordsFrom_spaces w acc hsp
  | cons c cs ih =>
      intro w acc hsp
      rw [List.cons_append]
      by_cases hw : isWordChar c = true
      · rw [wordsFrom_cons_word hw, wordsFrom_cons_word hw]
        exact ih w (acc ++ [c]) hsp
      · have hw' : isWordChar c = false := Bool.eq_false_iff.mpr hw
        rw [wordsFrom_cons_nonword hw', wordsFrom_cons_nonword hw', ih w [] hsp]

/-- Stripping edge whitespace does not change the word runs. -/
theorem wordsOf_stripWs (x : List Char) : wordsOf (stripWs x) = wordsOf x := by
  have h1 : wordsOf x = wordsOf (x.dropWhile isPySpace) := by
    conv_lhs => rw [← List.takeWhile_append_dropWhile (p := isPySpace) (l := x)]
    refine wordsOf_spaces_prefix _ _ ?_
    intro c hc
    have := List.all_takeWhile (p := isPySpace) (l := x)
    exact List.all_eq_true.mp this c hc
  have hdecomp : x.dropWhile isPySpace
      = stripWs x ++ ((x.dropWhile isPySpace).reverse.takeWhile isPySpace).reverse := by
    unfold stripWs
    conv_lhs => rw [← List.reverse_reverse (x.dropWhile isPySpace)]
    conv_lhs =>
      rw [← List.takeWhile_append_dropWhile (p := isPySpace)
        (l := (x.dropWhile isPySpace).reverse)]
    rw [List.reverse_append]
  have h2 : wordsOf (x.dropWhile isPySpace) = wordsOf (stripWs x) := by
    rw [hdecomp]
    refine wordsFrom_spaces_suffix _ _ [] ?_
    intro c hc
    rw [List.mem_reverse] at hc
    have := List.all_takeWhile (p := isPySpace) (l := (x.dropWhile isPySpace).reverse)
    exact List.all_eq_true.mp this c hc
  rw [h1, h2]

/-- Single-pass filler substitution of the empty remainder. -/
theorem gSubAux_nil (acc : List Char) : gSubAux acc [] = fillerEmit acc := rfl

/-- Single-pass filler substitution step on a word character. -/
theorem gSubAux_cons_word {c : Char} (h : isWordChar c = true) (acc cs : List Char) :
    gSubAux acc (c :: cs) = gSubAux (acc ++ [c]) cs := by
  conv_lhs => rw [gSubAux]
  rw [if_pos h]

/-- Single-pass filler substitution step on a non-word character. -/
theorem gSubAux_cons_nonword {c : Char} (h : isWordChar c = false) (acc cs : List Char) :
    gSubAux acc (c :: cs) = fillerEmit acc ++ c :: gSubAux [] cs := by
  conv_lhs => rw [gSubAux]
  rw [if_neg (by rw [h]; exact Bool.noConfusion)]

/-- The segment-level filler substitution agrees with its single-pass form. -/
theorem fillerSub_eq_gSubAux (v : List Char) :
    ∀ acc, flattenSegs ((segsAux acc v).map fillerSeg) = gSubAux acc v := by
  induction v with
  | nil =>
      intro acc
      rw [gSubAux_nil]
      conv_lhs => rw [segsAux]
      by_cases hacc : acc.isEmpty = true
      · rw [if_pos hacc]
        simp [flattenSegs, fillerEmit, hacc]
      · rw [if_neg hacc]
        by_cases hf : isFiller acc = true
        · simp [flattenSegs, fillerSeg, fillerEmit, hacc, hf]
        · simp [flattenSegs, fillerSeg, fillerEmit, hacc, hf]
  | cons c cs ih =>
      intro acc
      by_cases hw : isWordChar c = true
      · rw [segsAux_cons_word hw, gSubAux_cons_word hw]
        exact ih (acc ++ [c])
      · have hw' : isWordChar c = false := Bool.eq_false_iff.mpr hw
        rw [segsAux_cons_nonword hw', gSubAux_cons_nonword hw']
        rw [List.map_append, List.map_cons]
        unfold flattenSegs
        rw [List.flatMap_append, List.flatMap_cons]
        have hemit : ((if acc.isEmpty then [] else [Sum.inl acc]).map fillerSeg).flatMap
            (fun seg => match seg with | Sum.inl r => r | Sum.inr c => [c])
            = fillerEmit acc := by
          by_cases hacc : acc.isEmpty = true
          · simp [hacc, fillerEmit]
          · by_cases hf : isFiller acc = true
            · simp [hacc, hf, fillerSeg, fillerEmit]
            · simp [hacc, hf, fillerSeg, fillerEmit]
        rw [hemit]
        have hih := ih []
        unfold flattenSegs at hih
        rw [hih]
        simp [fillerSeg]

/-- The filler substitution as a single pass. -/
theorem fillerSub_eq_gSub (v : List Char) : fillerSub v = gSubAux [] v := by
  unfold fillerSub segs
  exact fillerSub_eq_gSubAux v []

/-- Segmenting past a word run accumulates it. -/
theorem segsAux_append_run (w : List Char) (hall : w.all isWordChar = true) :
    ∀ acc rest, segsAux acc (w ++ rest) = segsAux (acc ++ w) rest := by
  induction w with
  | nil => intro acc rest; simp
  | cons c wt ih =>
      intro acc rest
      rw [List.all_cons, Bool.and_eq_true] at hall
      rw [List.cons_append, segsAux_cons_word hall.1, ih hall.2]
      simp

/-- The single-pass filler substitution past a word run accumulates it. -/
theorem gSubAux_append_run (w : List Char) (hall : w.all isWordChar = true) :
    ∀ acc rest, gSubAux acc (w ++ rest) = gSubAux (acc ++ w) rest := by
  induction w with
  | nil => intro acc rest; simp
  | cons c wt ih =>
      intro acc rest
      rw [List.all_cons, Bool.and_eq_true] at hall
      rw [List.cons_append, gSubAux_cons_word hall.1, ih hall.2]
      simp

/-- A leading non-word character contributes no word run. -/
theorem wordsOf_cons_nonword {c : Char} (h : isWordChar c = false) (X : List Char) :
    wordsOf (c :: X) = wordsOf X := by
  unfold wordsOf
  rw [wordsFrom_cons_nonword h]
  simp

/-- A pure word run is its own single word. -/
theorem wordsOf_run (w : List Char) (hne : w ≠ []) (hall : w.all isWordChar = true) :
    wordsOf w = [w] := by
  unfold wordsOf wordsFrom
  conv_lhs => rw [← List.append_nil w]
  rw [segsAux_append_run w hall [] [], List.nil_append]
  conv_lhs => rw [segsAux]
  rw [if_neg (by simpa [List.isEmpty_iff] using hne)]
  simp [segWord]

/-- A word run followed by a non-word separator heads the word list. -/
theorem wordsOf_run_cons (w : List Char) (d : Char) (Y : List Char) (hne : w ≠ [])
    (hall : w.all isWordChar = true) (hd : isWordChar d = false) :
    wordsOf (w ++ d :: Y) = w :: wordsOf Y := by
  unfold wordsOf wordsFrom
  rw [segsAux_append_run w hall [] (d :: Y), List.nil_append,
    segsAux_cons_nonword hd, if_neg (by simpa [List.isEmpty_iff] using hne)]
  simp [segWord]

/-- The first character past the dropped prefix fails the predicate. -/
theorem dropWhile_head_false {p : Char → Bool} :
    ∀ {l : List Char} {d : Char} {r : List Char}, l.dropWhile p = d :: r → p d = false := by
  intro l
  induction l with
  | nil => intro d r h; exact absurd h (by simp)
  | cons c cs ih =>
      intro d r h
      rw [List.dropWhile_cons] at h
      split at h
      · exact ih h
      · rename_i hc
        cases h
        exact Bool.eq_false_iff.mpr hc

/-- No word of the filler-substituted string is a filler: replaced runs leave
only a separating space, and untouched runs are non-fillers by construction. -/
theorem gSub_words_nonfiller (n : Nat) :
    ∀ v : List Char, v.length ≤ n →
      ∀ w ∈ wordsOf (gSubAux [] v), isFiller w = false := by
  induction n with
  | zero =>
      intro v hv w hw
      have hnil : v = [] := List.length_eq_zero.mp (Nat.le_zero.mp hv)
      subst hnil
      simp [gSubAux, fillerEmit, wordsOf, wordsFrom, segsAux, segWord] at hw
  | succ n ih =>
      intro v hv w hw
      cases v with
      | nil => simp [gSubAux, fillerEmit, wordsOf, wordsFrom, segsAux, segWord] at hw
      | cons c cs =>
          have hv2 : cs.length ≤ n := by simpa using hv
          by_cases hcw : isWordChar c = true
          · have hsplit := List.takeWhile_append_dropWhile (p := isWordChar) (l := c :: cs)
            have hune : (c :: cs).takeWhile isWordChar ≠ [] := by
              rw [List.takeWhile_cons, if_pos hcw]
              exact List.cons_ne_nil _ _
            have huall : ((c :: cs).takeWhile isWordChar).all isWordChar = true :=
              List.all_takeWhile
            have hlen : ((c :: cs).takeWhile isWordChar).length
                + ((c :: cs).dropWhile isWordChar).length = cs.length + 1 := by
              have hh := congrArg List.length hsplit
              rw [List.length_append, List.length_cons] at hh
              exact hh
            have hulen : 1 ≤ ((c :: cs).takeWhile isWordChar).length := by
              cases hcase : (c :: cs).takeWhile isWordChar with
              | nil => exact absurd hcase hune
              | cons x xs => simp
            have hgv : gSubAux [] (c :: cs)
                = gSubAux ((c :: cs).takeWhile isWordChar) ((c :: cs).dropWhile isWordChar) := by
              conv_lhs => rw [← hsplit]
              rw [gSubAux_append_run _ huall [] _, List.nil_append]
            rw [hgv] at hw
            cases hrestc : (c :: cs).dropWhile isWordChar with
            | nil =>
                rw [hrestc] at hw
                rw [gSubAux_nil] at hw
                unfold fillerEmit at hw
                rw [if_neg (by simpa [List.isEmpty_iff] using hune)] at hw
                by_cases hf : isFiller ((c :: cs).takeWhile isWordChar) = true
                · rw [if_pos hf] at hw
                  rw [show wordsOf [' '] = [] from rfl] at hw
                  exact absurd hw (List.not_mem_nil w)
                · rw [if_neg hf] at hw
                  rw [wordsOf_run _ hune huall, List.mem_singleton] at hw
                  subst hw
                  exact Bool.eq_false_iff.mpr hf
            | cons d rest2 =>
                have hd : isWordChar d = false := dropWhile_head_false hrestc
                have hrlen : rest2.length + 1 + ((c :: cs).takeWhile isWordChar).length
                    = cs.length + 1 := by
                  rw [hrestc] at hlen
                  simp at hlen
                  omega
                rw [hrestc] at hw
                rw [gSubAux_cons_nonword hd] at hw
                unfold fillerEmit at hw
                rw [if_neg (by simpa [List.isEmpty_iff] using hune)] at hw
                by_cases hf : isFiller ((c :: cs).takeWhile isWordChar) = true
                · rw [if_pos hf, List.singleton_append] at hw
                  rw [wordsOf_cons_nonword (by decide), wordsOf_cons_nonword hd] at hw
                  exact ih rest2 (by omega) w hw
                · rw [if_neg hf, wordsOf_run_cons _ d _ hune huall hd] at hw
                  rcases List.mem_cons.mp hw with rfl | hw
                  · exact Bool.eq_false_iff.mpr hf
                  · exact ih rest2 (by omega) w hw
          · have hcw' : isWordChar c = false := Bool.eq_false_iff.mpr hcw
            rw [gSubAux_cons_nonword hcw',
              show fillerEmit [] = [] from rfl, List.nil_append] at hw
            rw [wordsOf_cons_nonword hcw'] at hw
            exact ih cs hv2 w hw

/-- No word of a cleaned string is a filler token. -/
theorem clean_text_nonfiller (s : List Char) :
    ∀ w ∈ wordsOf (clean_text s), isFiller w = false := by
  intro w hw
  unfold clean_text at hw
  rw [wordsOf_stripWs] at hw
  rw [show wordsOf (collapseWs (punctToSpace (fillerSub (dropLeadingThe
      (stripWs ((s.flatMap pyNFKD).map pyLower))))))
      = wordsFrom [] (collapseAux false (punctToSpace (fillerSub (dropLeadingThe
      (stripWs ((s.flatMap pyNFKD).map pyLower)))))) from rfl,
    wordsFrom_collapseAux _ [] false (fun hh => Bool.noConfusion hh),
    wordsFrom_punctToSpace _ [],
    show wordsFrom [] (fillerSub (dropLeadingThe (stripWs ((s.flatMap pyNFKD).map pyLower))))
      = wordsOf (fillerSub (dropLeadingThe (stripWs ((s.flatMap pyNFKD).map pyLower)))) from rfl,
    fillerSub_eq_gSub] at hw
  exact gSub_words_nonfiller _ _ le_rfl w hw

/-- Dropping leading whitespace is the identity on strings without it. -/
theorem dropWhile_id_of_headNotSpace {t : List Char} (h : headNotSpace t = true) :
    t.dropWhile isPySpace = t := by
  cases t with
  | nil => rfl
  | cons c cs =>
      simp only [headNotSpace, Bool.not_eq_true'] at h
      rw [List.dropWhile_cons, if_neg (by rw [h]; exact Bool.noConfusion)]

/-- Stripping is the identity on strings with no edge whitespace. -/
theorem stripWs_id {t : List Char} (h1 : headNotSpace t = true)
    (h2 : headNotSpace t.reverse = true) : stripWs t = t := by
  unfold stripWs
  rw [dropWhile_id_of_headNotSpace h1, dropWhile_id_of_headNotSpace h2,
    List.reverse_reverse]

/-- Removing a leading article is the identity when the pattern does not match. -/
theorem dropLeadingThe_id {t : List Char} (h : startsThe t = false) :
    dropLeadingThe t = t := by
  unfold startsThe at h
  unfold dropLeadingThe
  have hn : theBody t = none :=
    Option.not_isSome_iff_eq_none.mp (fun hs => by rw [h] at hs; exact Bool.noConfusion hs)
  rw [hn]
  rfl

/-- Decomposition plus lowercasing is the identity on normal-form strings. -/
theorem nfkd_lower_id {t : List Char} (h : ∀ c ∈ t, invChar c = true) :
    (t.flatMap pyNFKD).map pyLower = t := by
  induction t with
  | nil => rfl
  | cons c cs ih =>
      have hc := h c (List.mem_cons_self _ _)
      unfold invChar at hc
      rw [Bool.and_eq_true] at hc
      have h1 : pyNFKD c = [c] := by simpa using hc.1
      have h2 : pyLower c = c := by simpa using hc.2
      rw [List.flatMap_cons, h1, List.map_append,
        ih (fun d hd => h d (List.mem_cons_of_mem _ hd))]
      simp [h2]

/-- The filler substitution is the identity on strings without filler words. -/
theorem fillerSub_id {t : List Char} (h : ∀ w ∈ wordsOf t, isFiller w = false) :
    fillerSub t = t := by
  unfold fillerSub
  have hmap : (segs t).map fillerSeg = (segs t).map id := by
    refine List.map_congr_left ?_
    intro seg hseg
    cases seg with
    | inr d => rfl
    | inl w =>
        have hwmem : w ∈ wordsOf t := by
          unfold wordsOf wordsFrom
          unfold segs at hseg
          exact List.mem_filterMap.mpr ⟨Sum.inl w, hseg, rfl⟩
        show (if isFiller w then (Sum.inr ' ' : List Char ⊕ Char) else Sum.inl w)
          = id (Sum.inl w)
        rw [h w hwmem]
        rfl
  rw [hmap, List.map_id]
  unfold segs
  rw [flattenSegs_segsAux t []]
  rfl

/-- The punctuation pass is the identity on word-or-space strings. -/
theorem punctToSpace_id {t : List Char} (h : ∀ c ∈ t, isWordChar c = true ∨ c = ' ') :
    punctToSpace t = t := by
  unfold punctToSpace
  have hcongr : ∀ c ∈ t, (if (isWordChar c || isPySpace c) = true then c else ' ') = id c := by
    intro c hc
    rcases h c hc with hh | rfl
    · rw [if_pos (by rw [hh]; rfl)]
      rfl
    · rw [if_pos (by decide)]
      rfl
  rw [List.map_congr_left hcongr, List.map_id]

/-- The collapse pass is the identity on singly spaced strings whose only
whitespace is the plain space character. -/
theorem collapseAux_id {t : List Char} :
    ∀ flag, noDoubleSpace t = true → (∀ c ∈ t, isPySpace c = true → c = ' ') →
      (flag = true → headNotSpace t = true) → collapseAux flag t = t := by
  induction t with
  | nil => intro flag _ _ _; rfl
  | cons c cs ih =>
      intro flag hnd hsp hhead
      by_cases hc : isPySpace c = true
      · cases flag with
        | true =>
            have hh := hhead rfl
            simp only [headNotSpace, Bool.not_eq_true'] at hh
            rw [hc] at hh
            exact Bool.noConfusion hh
        | false =>
            conv_lhs => rw [collapseAux]
            rw [if_pos hc]
            have hcsp : c = ' ' := hsp c (List.mem_cons_self _ _) hc
            have hhead2 : headNotSpace cs = true := by
              cases cs with
              | nil => rfl
              | cons d ds =>
                  have hpair0 : (!(isPySpace c && isPySpace d)
                      && noDoubleSpace (d :: ds)) = true := hnd
                  rw [Bool.and_eq_true] at hpair0
                  have hpair := hpair0.1
                  rw [Bool.not_eq_true', Bool.and_eq_false_iff] at hpair
                  rcases hpair with hpair | hpair
                  · rw [hc] at hpair
                    exact Bool.noConfusion hpair
                  · simp [headNotSpace, hpair]
            rw [ih true (noDouble_tail hnd)
              (fun d hd hsd => hsp d (List.mem_cons_of_mem _ hd) hsd) (fun _ => hhead2)]
            rw [hcsp]
            rfl
      · conv_lhs => rw [collapseAux]
        rw [if_neg hc,
          ih false (noDouble_tail hnd)
            (fun d hd hsd => hsp d (List.mem_cons_of_mem _ hd) hsd)
            (fun hh => Bool.noConfusion hh)]

/-- C4 amended: the cleaner is idempotent on every input whose cleaned form
does not begin with the word "the" followed by a space; only the anchored
leading-article removal can make a second pass differ (see the counterexample
"the the x"). -/
theorem clean_text_idempotent (s : List Char) (h : startsThe (clean_text s) = false) :
    clean_text (clean_text s) = clean_text s := by
  have hchars := clean_text_chars s
  obtain ⟨hnd, hhead, hlast⟩ := clean_text_spaced s
  have hnf := clean_text_nonfiller s
  have hinv : ∀ c ∈ clean_text s, invChar c = true := fun c hc => (hchars c hc).1
  have hws : ∀ c ∈ clean_text s, isWordChar c = true ∨ c = ' ' := fun c hc => (hchars c hc).2
  have hsp : ∀ c ∈ clean_text s, isPySpace c = true → c = ' ' := by
    intro c hc hspc
    rcases hws c hc with hh | hh
    · rw [isWordChar_of_isPySpace c hspc] at hh
      exact Bool.noConfusion hh
    · exact hh
  conv_lhs => rw [clean_text]
  rw [nfkd_lower_id hinv, stripWs_id hhead hlast, dropLeadingThe_id h, fillerSub_id hnf,
    punctToSpace_id hws,
    show collapseWs (clean_text s) = collapseAux false (clean_text s) from rfl,
    collapseAux_id false hnd hsp (fun hh => Bool.noConfusion hh),
    stripWs_id hhead hlast]

/-- Witness for C4 at a representative raw value whose cleaned form does not
start with a leading article. -/
theorem clean_text_idempotent_witness :
    startsThe (clean_text (strL "  The  Republic of Congo!! ")) = false ∧
      clean_text (clean_text (strL "  The  Republic of Congo!! "))
        = clean_text (strL "  The  Republic of Congo!! ") :=
  ⟨by decide, clean_text_idempotent _ (by decide)⟩
